import Mathlib

/-!
# AeroFighters: the flying pawn (`Source/AeroFighters/AeroFightersPawn.cpp`)

A shallow embedding of `AAeroFightersPawn`: its member fields are the state, every
engine getter the methods read is a field of a `Host` snapshot passed to the call,
and every engine mutator the methods invoke is recorded, in program order, in a list
of `EngineCall`s returned next to the new state.

C++ `float` is modelled by exact rational arithmetic (`ℚ`) wherever rounding plays no
part in the property at hand.  Where it does (repeated `ThrustInput(0)` calls),
`ThrustInput` is embedded a second time in namespace `Binary32`, with every product
and sum rounded to single precision and with infinities and NaN.  `GetWorld()` is a
pointer that may be null: it is an `Option UWorld`, and a method that dereferences it
without a check has no result (`none`) when it is null.
-/

namespace AeroFighters

/-! ## Engine value types -/

/-- Engine type `FVector`: three float components. -/
structure FVector where
  X : ℚ
  Y : ℚ
  Z : ℚ
  deriving DecidableEq

/-- Engine operator `FVector::operator+`, componentwise. -/
def FVector.add (a b : FVector) : FVector :=
  ⟨a.X + b.X, a.Y + b.Y, a.Z + b.Z⟩

instance : Add FVector := ⟨FVector.add⟩

/-- Engine type `FRotator`: Euler angles in degrees. -/
structure FRotator where
  Pitch : ℚ
  Yaw : ℚ
  Roll : ℚ
  deriving DecidableEq

/-- Engine enumeration `EAxis::Type`. -/
inductive EAxis where
  | None
  | X
  | Y
  | Z
  deriving DecidableEq

/-- Modelled from the spec: `FRotator::GetComponentForAxis`, an engine method whose
source is not under src/.  The spec (§4.1, `applyRollAssist`) says the X component the
pawn reads and writes is the roll angle; the other axes follow the engine's
convention (Y is pitch, Z is yaw). -/
def FRotator.GetComponentForAxis (r : FRotator) : EAxis → ℚ
  | .X => r.Roll
  | .Y => r.Pitch
  | .Z => r.Yaw
  | .None => 0

/-- Modelled from the spec: `FRotator::SetComponentForAxis`, the writer matching
`GetComponentForAxis` (engine method, source not under src/). -/
def FRotator.SetComponentForAxis (r : FRotator) : EAxis → ℚ → FRotator
  | .X, c => { r with Roll := c }
  | .Y, c => { r with Pitch := c }
  | .Z, c => { r with Yaw := c }
  | .None, _ => r

/-- A `UClass` handle, as held by `TSubclassOf<AAirProjectile>`. -/
structure UClass where
  id : ℕ
  deriving DecidableEq

/-- Engine type `UWorld`, as far as the pawn reads it: `GetDeltaSeconds()`. -/
structure UWorld where
  DeltaSeconds : ℚ
  deriving DecidableEq

/-- Engine type `USceneComponent`, as far as the pawn reads it: the world-space getters
`GetComponentLocation()` and `GetComponentRotation()`. -/
structure USceneComponent where
  ComponentLocation : FVector
  ComponentRotation : FRotator
  deriving DecidableEq

/-- What the engine getters return during one call into the pawn. -/
structure Host where
  /-- Getter `GetWorld()`; `none` is the null pointer. -/
  World : Option UWorld
  /-- Getter `GetActorRotation()`. -/
  ActorRotation : FRotator
  /-- Component `*LeftMuzzleLocation`. -/
  LeftMuzzleLocation : USceneComponent
  /-- Component `*RightMuzzleLocation`. -/
  RightMuzzleLocation : USceneComponent
  deriving DecidableEq

/-- The engine mutators the pawn invokes. -/
inductive EngineCall where
  /-- Call `AddActorLocalOffset(DeltaLocation, bSweep)`. -/
  | AddActorLocalOffset (DeltaLocation : FVector) (bSweep : Bool)
  /-- Call `AddActorLocalRotation(DeltaRotation)`. -/
  | AddActorLocalRotation (DeltaRotation : FRotator)
  /-- Call `Super::Tick(DeltaSeconds)`. -/
  | SuperTick (DeltaSeconds : ℚ)
  /-- Call `SetActorRotation(NewRotation)`. -/
  | SetActorRotation (NewRotation : FRotator)
  /-- Call `World->SpawnActor<AAirProjectile>(Class, Location, Rotation)`. -/
  | SpawnActor (Class : UClass) (Location : FVector) (Rotation : FRotator)
  /-- Call `GetTimerManager().SetTimer(TimerHandle_ShotTimerExpired, this,
  &AAeroFightersPawn::ShotTimerExpired, Rate)`. -/
  | SetTimer (Rate : ℚ)
  deriving DecidableEq

/-! ## Engine math helpers (`FMath`) -/

/-- Engine function `FMath::Abs`. -/
def FMath.Abs (a : ℚ) : ℚ := |a|

/-- Engine template `FMath::Clamp(X, Min, Max)`: `X < Min ? Min : X < Max ? X : Max`. -/
def FMath.Clamp (X Min Max : ℚ) : ℚ :=
  if X < Min then Min else if X < Max then X else Max

/-- Modelled from the spec: the tolerance of `FMath::IsNearlyEqual`, below which an
axis value is negligible (§4.1).  The engine header that defines it is not under
src/; the value is the engine's `SMALL_NUMBER`, 1.e-8. -/
def SMALL_NUMBER : ℚ := 1 / 100000000

/-- Modelled from the spec: `FMath::IsNearlyEqual(A, B)` with its default tolerance
(engine function, source not under src/): the two values differ by a negligible
amount. -/
def FMath.IsNearlyEqual (A B : ℚ) : Bool :=
  decide (|A - B| ≤ SMALL_NUMBER)

/-- Modelled from the spec: `FMath::FInterpTo(Current, Target, DeltaTime, InterpSpeed)`
(engine function, source not under src/).  §4.1 gives the interpolation law
`rate += (target - rate) * min(1, speed * dt)`. -/
def FMath.FInterpTo (Current Target DeltaTime InterpSpeed : ℚ) : ℚ :=
  Current + (Target - Current) * min 1 (InterpSpeed * DeltaTime)

/-! ## The pawn -/

/-- The member fields of `AAeroFightersPawn` that its methods read or write. -/
structure AAeroFightersPawn where
  Acceleration : ℚ
  TurnSpeed : ℚ
  MaxSpeed : ℚ
  MinSpeed : ℚ
  CurrentForwardSpeed : ℚ
  CurrentYawSpeed : ℚ
  CurrentPitchSpeed : ℚ
  CurrentRollSpeed : ℚ
  IsTurning : Bool
  GunOffset : FVector
  FireRate : ℚ
  CanFire : Bool
  /-- Member `ProjectileClass`; `none` is `NULL`. -/
  ProjectileClass : Option UClass
  deriving DecidableEq

/-- The result of a method: the pawn afterwards and the engine calls it made. -/
abbrev Outcome := AAeroFightersPawn × List EngineCall

/-- Method `AAeroFightersPawn::AAeroFightersPawn()`, the handling parameters (lines 50-59).
The constructor assigns these members and leaves the others (the three angular
rates, `ProjectileClass`) as the storage `raw` it is run on has them. -/
def AAeroFightersPawn.ctor (raw : AAeroFightersPawn) : AAeroFightersPawn :=
  { raw with
    Acceleration := 500
    TurnSpeed := 50
    MaxSpeed := 4000
    MinSpeed := 500
    CurrentForwardSpeed := 500
    IsTurning := false
    GunOffset := ⟨200, 0, 0⟩
    FireRate := 1 / 10
    CanFire := true }

/-- Method `AAeroFightersPawn::Tick(float DeltaSeconds)`. -/
def Tick (p : AAeroFightersPawn) (DeltaSeconds : ℚ) : Outcome :=
  let LocalMove : FVector := ⟨p.CurrentForwardSpeed * DeltaSeconds, 0, 0⟩
  let DeltaRotation : FRotator :=
    { Pitch := p.CurrentPitchSpeed * DeltaSeconds
      Yaw := p.CurrentYawSpeed * DeltaSeconds
      Roll := if p.IsTurning then p.CurrentRollSpeed * DeltaSeconds else 0 }
  ({ p with IsTurning := if p.IsTurning then false else p.IsTurning },
   [.AddActorLocalOffset LocalMove true,
    .AddActorLocalRotation DeltaRotation,
    .SuperTick DeltaSeconds])

/-- Method `AAeroFightersPawn::ThrustInput(float Val)`.  `GetWorld()` is dereferenced
unchecked. -/
def ThrustInput (p : AAeroFightersPawn) (h : Host) (Val : ℚ) : Option Outcome :=
  match h.World with
  | none => none
  | some World =>
    let bHasInput : Bool := !FMath.IsNearlyEqual Val 0
    let CurrentAcc : ℚ := if bHasInput then Val * p.Acceleration else (-1 / 2) * p.Acceleration
    let NewForwardSpeed : ℚ := p.CurrentForwardSpeed + World.DeltaSeconds * CurrentAcc
    some ({ p with CurrentForwardSpeed := FMath.Clamp NewForwardSpeed p.MinSpeed p.MaxSpeed }, [])

/-- Method `AAeroFightersPawn::MoveUpInput(float Val)`.  `GetWorld()` is dereferenced
unchecked. -/
def MoveUpInput (p : AAeroFightersPawn) (h : Host) (Val : ℚ) : Option Outcome :=
  match h.World with
  | none => none
  | some World =>
    let TargetPitchSpeed : ℚ := Val * p.TurnSpeed * (-1)
    let TargetPitchSpeed : ℚ := TargetPitchSpeed + FMath.Abs p.CurrentYawSpeed * (-1 / 5)
    some ({ p with CurrentPitchSpeed :=
              FMath.FInterpTo p.CurrentPitchSpeed TargetPitchSpeed World.DeltaSeconds 2 }, [])

/-- Method `AAeroFightersPawn::LoopRightInput(float Val)`. -/
def LoopRightInput (p : AAeroFightersPawn) (h : Host) (Val : ℚ) : Outcome :=
  let bIsRolling : Bool := decide (FMath.Abs Val > 1 / 5)
  if bIsRolling && !p.IsTurning then
    let rotator := h.ActorRotation
    let componentForX := rotator.GetComponentForAxis EAxis.X
    let rotator := rotator.SetComponentForAxis EAxis.X (componentForX + 1 * Val)
    (p, [.SetActorRotation rotator])
  else
    (p, [])

/-- Method `AAeroFightersPawn::TurnRightInput(float Val)`.  `GetWorld()` is dereferenced
unchecked. -/
def TurnRightInput (p : AAeroFightersPawn) (h : Host) (Val : ℚ) : Option Outcome :=
  match h.World with
  | none => none
  | some World =>
    let TargetYawSpeed : ℚ := Val * p.TurnSpeed
    let CurrentYawSpeed := FMath.FInterpTo p.CurrentYawSpeed TargetYawSpeed World.DeltaSeconds 2
    let IsTurning : Bool := decide (FMath.Abs Val > 1 / 5)
    let TargetRollSpeed : ℚ :=
      if IsTurning then CurrentYawSpeed * (1 / 2) else h.ActorRotation.Roll * (-2)
    some ({ p with
            CurrentYawSpeed := CurrentYawSpeed
            IsTurning := IsTurning
            CurrentRollSpeed :=
              FMath.FInterpTo p.CurrentRollSpeed TargetRollSpeed World.DeltaSeconds 2 }, [])

/-- Method `AAeroFightersPawn::OnFire(float Val)`.  `IsFiring` is the float `FMath::Abs(Val)`
converted to `bool`: true exactly when it is not zero. -/
def OnFire (p : AAeroFightersPawn) (h : Host) (Val : ℚ) : Outcome :=
  let IsFiring : Bool := decide (FMath.Abs Val ≠ 0)
  match p.ProjectileClass with
  | none => (p, [])
  | some ProjectileClass =>
    if IsFiring && p.CanFire then
      match h.World with
      | none => (p, [])
      | some _ =>
        let LeftSpawnRotation := h.LeftMuzzleLocation.ComponentRotation
        let LeftSpawnLocation := h.LeftMuzzleLocation.ComponentLocation + p.GunOffset
        let RightSpawnRotation := h.RightMuzzleLocation.ComponentRotation
        let RightSpawnLocation := h.RightMuzzleLocation.ComponentLocation + p.GunOffset
        ({ p with CanFire := false },
         [.SpawnActor ProjectileClass LeftSpawnLocation LeftSpawnRotation,
          .SpawnActor ProjectileClass RightSpawnLocation RightSpawnRotation,
          .SetTimer p.FireRate])
    else
      (p, [])

/-- Method `AAeroFightersPawn::ShotTimerExpired()`. -/
def ShotTimerExpired (p : AAeroFightersPawn) : Outcome :=
  ({ p with CanFire := true }, [])

/-! ## Sequences of calls -/

/-- One call into the pawn: the axis handlers bound in `SetupPlayerInputComponent`,
the timer callback and the frame tick. -/
inductive Call where
  | ThrustInput (Val : ℚ)
  | MoveUpInput (Val : ℚ)
  | LoopRightInput (Val : ℚ)
  | TurnRightInput (Val : ℚ)
  | OnFire (Val : ℚ)
  | ShotTimerExpired
  | Tick (DeltaSeconds : ℚ)
  deriving DecidableEq

/-- Dispatch of one call, with the host snapshot it runs against. -/
def step (p : AAeroFightersPawn) (h : Host) : Call → Option Outcome
  | .ThrustInput Val => ThrustInput p h Val
  | .MoveUpInput Val => MoveUpInput p h Val
  | .LoopRightInput Val => some (LoopRightInput p h Val)
  | .TurnRightInput Val => TurnRightInput p h Val
  | .OnFire Val => some (OnFire p h Val)
  | .ShotTimerExpired => some (ShotTimerExpired p)
  | .Tick DeltaSeconds => some (Tick p DeltaSeconds)

/-- The pawn after a sequence of calls; `none` when one of them dereferenced a null
world. -/
def run (p : AAeroFightersPawn) : List (Host × Call) → Option AAeroFightersPawn
  | [] => some p
  | (h, c) :: rest =>
    match step p h c with
    | none => none
    | some (q, _) => run q rest

/-- The spawn requests among the engine calls, as (location, rotation), in order. -/
def spawnRequests : List EngineCall → List (FVector × FRotator)
  | [] => []
  | .SpawnActor _ Location Rotation :: rest => (Location, Rotation) :: spawnRequests rest
  | _ :: rest => spawnRequests rest

/-- The delays of the cooldown timers scheduled among the engine calls, in order. -/
def scheduledTimers : List EngineCall → List ℚ
  | [] => []
  | .SetTimer Rate :: rest => Rate :: scheduledTimers rest
  | _ :: rest => scheduledTimers rest

/-! ## Reference definitions, in the words of the specification -/

namespace Spec

/-- The clamp of the specification: a value below the range gives its lower end, a
value above it the upper end, any other value itself. -/
def clamp (x lo hi : ℚ) : ℚ :=
  if x < lo then lo else if hi < x then hi else x

/-- Specification §4.1, `applyThrust(value, dt)`: a non-negligible value accelerates
by `value * acceleration`, a negligible one by `-0.5 * acceleration`; the speed is
then clamped to the speed range.  Nothing else changes. -/
def applyThrust (p : AAeroFightersPawn) (value dt : ℚ) : AAeroFightersPawn :=
  let a : ℚ := if SMALL_NUMBER < |value| then value * p.Acceleration else -(1 / 2) * p.Acceleration
  { p with CurrentForwardSpeed := clamp (p.CurrentForwardSpeed + a * dt) p.MinSpeed p.MaxSpeed }

/-- Specification §4.1, `tick(dt)`, the position delta: `(forwardSpeed*dt, 0, 0)`. -/
def tickPositionDelta (p : AAeroFightersPawn) (dt : ℚ) : FVector :=
  ⟨p.CurrentForwardSpeed * dt, 0, 0⟩

/-- Specification §4.1, `tick(dt)`, the rotation delta:
`(pitchRate*dt, yawRate*dt, isTurning ? rollRate*dt : 0)`. -/
def tickRotationDelta (p : AAeroFightersPawn) (dt : ℚ) : FRotator :=
  { Pitch := p.CurrentPitchSpeed * dt
    Yaw := p.CurrentYawSpeed * dt
    Roll := if p.IsTurning then p.CurrentRollSpeed * dt else 0 }

/-- Specification §4.1, `tick(dt)`, the state afterwards: `isTurning` is reset. -/
def tickState (p : AAeroFightersPawn) : AAeroFightersPawn :=
  { p with IsTurning := false }

/-- Specification §4.1, `applyPitch`: the target pitch rate
`-value*turnSpeed - 0.2*|yawRate|`. -/
def targetPitchRate (p : AAeroFightersPawn) (value : ℚ) : ℚ :=
  -value * p.TurnSpeed - (1 / 5) * |p.CurrentYawSpeed|

end Spec

/-! ## Concrete pawns and hosts used in the scenarios -/

/-- Storage with every member zero, no projectile class. -/
def zeroPawn : AAeroFightersPawn :=
  { Acceleration := 0, TurnSpeed := 0, MaxSpeed := 0, MinSpeed := 0
    CurrentForwardSpeed := 0, CurrentYawSpeed := 0, CurrentPitchSpeed := 0
    CurrentRollSpeed := 0, IsTurning := false, GunOffset := ⟨0, 0, 0⟩
    FireRate := 0, CanFire := false, ProjectileClass := none }

/-- The constructed pawn with a projectile class configured. -/
def armedPawn : AAeroFightersPawn :=
  { AAeroFightersPawn.ctor zeroPawn with ProjectileClass := some ⟨7⟩ }

/-- A host in level flight at the origin, the muzzles at their attachment offsets,
with the given world pointer. -/
def levelHost (World : Option UWorld) : Host :=
  { World := World
    ActorRotation := ⟨0, 0, 0⟩
    LeftMuzzleLocation := ⟨⟨550, -650, -50⟩, ⟨0, 0, 0⟩⟩
    RightMuzzleLocation := ⟨⟨550, 650, -50⟩, ⟨0, 0, 0⟩⟩ }

/-! ## Invariant and closed forms of repeated calls -/

/-- The speed-range invariant: `MinSpeed ≤ CurrentForwardSpeed ≤ MaxSpeed`. -/
def SpeedInRange (p : AAeroFightersPawn) : Prop :=
  p.MinSpeed ≤ p.CurrentForwardSpeed ∧ p.CurrentForwardSpeed ≤ p.MaxSpeed

instance (p : AAeroFightersPawn) : Decidable (SpeedInRange p) :=
  inferInstanceAs
    (Decidable (p.MinSpeed ≤ p.CurrentForwardSpeed ∧ p.CurrentForwardSpeed ≤ p.MaxSpeed))

/-- The pawn after `n` pitch calls with the same value and frame time `dt`. -/
def pitchState (p : AAeroFightersPawn) (Val dt : ℚ) (n : ℕ) : AAeroFightersPawn :=
  { p with
    CurrentPitchSpeed := Spec.targetPitchRate p Val -
      (Spec.targetPitchRate p Val - p.CurrentPitchSpeed) * (1 - min 1 (2 * dt)) ^ n }

/-! ## Single-precision arithmetic

The members of the pawn are C++ `float`s: IEEE 754 binary32, each operation rounded
to nearest, ties to even.  The exact model above describes the code wherever rounding
plays no part; where it decides the outcome (repeated thrust calls with a small
decrement) the code is embedded a second time, with every arithmetic result rounded. -/

namespace Binary32

/-- The binade of a value: `e` with `2^e ≤ |x| < 2^(e+1)`, not below `-126` (zero and
the subnormal values share the lowest binade). -/
def exponent (x : ℚ) : ℤ := if x = 0 then -126 else max (Int.log 2 |x|) (-126)

/-- The unit in the last place of a 24-bit significand in the binade of `x`. -/
def ulp (x : ℚ) : ℚ := (2 : ℚ) ^ (exponent x - 23)

/-- The nearest integer, a tie going to the even one. -/
def roundHalfEven (q : ℚ) : ℤ :=
  if q - ⌊q⌋ < 1 / 2 then ⌊q⌋
  else if 1 / 2 < q - ⌊q⌋ then ⌊q⌋ + 1
  else if ⌊q⌋ % 2 = 0 then ⌊q⌋ else ⌊q⌋ + 1

/-- The nearest value with a 24-bit significand (exponent unbounded above), a tie
going to the even significand. -/
def roundToNearest (x : ℚ) : ℚ := roundHalfEven (x / ulp x) * ulp x

/-- A `float`: a finite value, an infinity (negative or positive) or NaN. -/
inductive Value where
  | finite (q : ℚ)
  | inf (negative : Bool)
  | nan
  deriving DecidableEq

/-- The `float` an exact result rounds to: the nearest value, or an infinity when that
is `2^128` or more in magnitude. -/
def ofExact (x : ℚ) : Value :=
  if 2 ^ 128 ≤ |roundToNearest x| then Value.inf (decide (roundToNearest x < 0))
  else Value.finite (roundToNearest x)

/-- Negation of a `float`. -/
def Value.neg : Value → Value
  | .finite a => .finite (-a)
  | .inf s => .inf (!s)
  | .nan => .nan

/-- Addition of `float`s. -/
def Value.add : Value → Value → Value
  | .finite a, .finite b => ofExact (a + b)
  | .finite _, .inf s => .inf s
  | .inf s, .finite _ => .inf s
  | .inf s, .inf t => if s = t then .inf s else .nan
  | .nan, _ => .nan
  | _, .nan => .nan

/-- Subtraction of `float`s. -/
def Value.sub (a b : Value) : Value := a.add b.neg

/-- Multiplication of `float`s. -/
def Value.mul : Value → Value → Value
  | .finite a, .finite b => ofExact (a * b)
  | .finite a, .inf s => if a = 0 then .nan else .inf (xor (decide (a < 0)) s)
  | .inf s, .finite b => if b = 0 then .nan else .inf (xor s (decide (b < 0)))
  | .inf s, .inf t => .inf (xor s t)
  | .nan, _ => .nan
  | _, .nan => .nan

/-- Absolute value of a `float` (`FMath::Abs<float>`). -/
def Value.abs : Value → Value
  | .finite a => .finite |a|
  | .inf _ => .inf false
  | .nan => .nan

/-- Comparison `<` of `float`s; false when either is NaN. -/
def Value.lt : Value → Value → Bool
  | .finite a, .finite b => decide (a < b)
  | .finite _, .inf s => !s
  | .inf s, .finite _ => s
  | .inf s, .inf t => s && !t
  | .nan, _ => false
  | _, .nan => false

/-- Comparison `<=` of `float`s; false when either is NaN. -/
def Value.le : Value → Value → Bool
  | .finite a, .finite b => decide (a ≤ b)
  | .finite _, .inf s => !s
  | .inf s, .finite _ => s
  | .inf s, .inf t => s || !t
  | .nan, _ => false
  | _, .nan => false

/-- A `float` that is at most 0: a finite value at most 0, or negative infinity. -/
def Value.NonPos : Value → Prop
  | .finite c => c ≤ 0
  | .inf s => s = true
  | .nan => False

/-- A rational that is a finite `float`: it rounds to itself and is below `2^128` in
magnitude. -/
def IsFloat (c : ℚ) : Prop := roundToNearest c = c ∧ |c| < 2 ^ 128

instance (c : ℚ) : Decidable (IsFloat c) :=
  inferInstanceAs (Decidable (roundToNearest c = c ∧ |c| < 2 ^ 128))

/-- Modelled from the spec: the tolerance of `FMath::IsNearlyEqual` as a `float`, the
literal `1.e-8f` (engine header not under src/). -/
def SMALL_NUMBER : Value := ofExact (1 / 100000000)

/-- Modelled from the spec: `FMath::IsNearlyEqual(A, B)` with its default tolerance
(engine function, source not under src/): `Abs(A - B) <= SMALL_NUMBER` in `float`. -/
def IsNearlyEqual (A B : Value) : Bool := ((A.sub B).abs).le SMALL_NUMBER

/-- Engine template `FMath::Clamp(X, Min, Max)` on `float`s:
`X < Min ? Min : X < Max ? X : Max`. -/
def Clamp (X Min Max : Value) : Value :=
  if X.lt Min then Min else if X.lt Max then X else Max

/-- Method `AAeroFightersPawn::ThrustInput(float Val)` in single precision: lines
111-117 with every product and sum rounded.  `GetWorld()` is dereferenced unchecked.
The members of the pawn are finite; the clamp of a `float` to a finite range is finite
(see `Clamp_finite`), so the last match always takes its first branch. -/
def ThrustInput (p : AAeroFightersPawn) (h : Host) (Val : ℚ) : Option Outcome :=
  match h.World with
  | none => none
  | some World =>
    let bHasInput : Bool := !IsNearlyEqual (.finite Val) (.finite 0)
    let CurrentAcc : Value :=
      if bHasInput then (Value.finite Val).mul (.finite p.Acceleration)
      else (Value.finite (-1 / 2)).mul (.finite p.Acceleration)
    let NewForwardSpeed : Value :=
      (Value.finite p.CurrentForwardSpeed).add ((Value.finite World.DeltaSeconds).mul CurrentAcc)
    match Clamp NewForwardSpeed (.finite p.MinSpeed) (.finite p.MaxSpeed) with
    | .finite s => some ({ p with CurrentForwardSpeed := s }, [])
    | _ => none

/-- The pawn after `n` single-precision `ThrustInput(0)` calls against the host `h`. -/
def coast (p : AAeroFightersPawn) (h : Host) : ℕ → AAeroFightersPawn
  | 0 => p
  | n + 1 =>
    match ThrustInput (coast p h n) h 0 with
    | some (q, _) => q
    | none => coast p h n

end Binary32

/-- The constructed pawn at speed 1000, above `MinSpeed = 500`. -/
def cruisingPawn : AAeroFightersPawn :=
  { armedPawn with CurrentForwardSpeed := 1000 }

/-! ## Helper lemmas -/

theorem FVector.add_def (a b : FVector) : a + b = ⟨a.X + b.X, a.Y + b.Y, a.Z + b.Z⟩ := rfl

theorem isFiring_iff (Val : ℚ) : decide (FMath.Abs Val ≠ 0) = true ↔ Val ≠ 0 := by
  simp [FMath.Abs]

/-- The source clamp stays inside a well-ordered range. -/
theorem Clamp_mem (X Min Max : ℚ) (h : Min ≤ Max) :
    Min ≤ FMath.Clamp X Min Max ∧ FMath.Clamp X Min Max ≤ Max := by
  unfold FMath.Clamp
  split_ifs with h1 h2
  · exact ⟨le_refl _, h⟩
  · exact ⟨not_lt.mp h1, le_of_lt h2⟩
  · exact ⟨h, le_refl _⟩

/-- The source clamp is the three-case clamp of the specification. -/
theorem Clamp_eq_spec (X Min Max : ℚ) : FMath.Clamp X Min Max = Spec.clamp X Min Max := by
  unfold FMath.Clamp Spec.clamp
  split_ifs with h1 h2 h3 h3
  · rfl
  · exact absurd h3 (not_lt.mpr (le_of_lt h2))
  · rfl
  · rfl
  · exact le_antisymm (not_lt.mp h2) (not_lt.mp h3)

/-- On a well-ordered range the source clamp is `max Min (min X Max)`. -/
theorem Clamp_eq_max_min (X Min Max : ℚ) (h : Min ≤ Max) :
    FMath.Clamp X Min Max = max Min (min X Max) := by
  unfold FMath.Clamp
  split_ifs with h1 h2
  · rw [max_eq_left]; exact le_trans (min_le_left _ _) (le_of_lt h1)
  · rw [min_eq_left (le_of_lt h2), max_eq_right (not_lt.mp h1)]
  · rw [min_eq_right (not_lt.mp h2), max_eq_right h]

/-! ## Tick -/

/-- C8: `Tick(dt)` is its reference definition: it requests the local translation
`(CurrentForwardSpeed*dt, 0, 0)` (swept) and then the rotation delta with
pitch `CurrentPitchSpeed*dt`, yaw `CurrentYawSpeed*dt` and roll `CurrentRollSpeed*dt`
if `IsTurning` and `0` otherwise; afterwards `IsTurning` is false and the forward
speed, the three angular rates and `CanFire` (indeed every other member) are as
before. -/
theorem Tick_eq_reference (p : AAeroFightersPawn) (dt : ℚ) :
    Tick p dt =
        (Spec.tickState p,
         [EngineCall.AddActorLocalOffset (Spec.tickPositionDelta p dt) true,
          EngineCall.AddActorLocalRotation (Spec.tickRotationDelta p dt),
          EngineCall.SuperTick dt]) ∧
      (Tick p dt).1 = { p with IsTurning := false } ∧
      (Tick p dt).1.IsTurning = false ∧
      (Tick p dt).1.CurrentForwardSpeed = p.CurrentForwardSpeed ∧
      (Tick p dt).1.CurrentPitchSpeed = p.CurrentPitchSpeed ∧
      (Tick p dt).1.CurrentYawSpeed = p.CurrentYawSpeed ∧
      (Tick p dt).1.CurrentRollSpeed = p.CurrentRollSpeed ∧
      (Tick p dt).1.CanFire = p.CanFire ∧
      Spec.tickPositionDelta p dt = ⟨p.CurrentForwardSpeed * dt, 0, 0⟩ ∧
      Spec.tickRotationDelta p dt =
        ⟨p.CurrentPitchSpeed * dt, p.CurrentYawSpeed * dt,
         if p.IsTurning then p.CurrentRollSpeed * dt else 0⟩ := by
  have hstate : (Tick p dt).1 = { p with IsTurning := false } := by
    cases hT : p.IsTurning <;> simp [Tick, hT]
  refine ⟨?_, hstate, ?_, ?_, ?_, ?_, ?_, ?_, rfl, rfl⟩
  · exact Prod.ext hstate rfl
  all_goals rw [hstate]

/-! ## Weapon: `OnFire` and `ShotTimerExpired` -/

/-- The outcome of `OnFire` when every guard passes. -/
theorem OnFire_fires (p : AAeroFightersPawn) (h : Host) (Val : ℚ) (c : UClass) (w : UWorld)
    (hcls : p.ProjectileClass = some c) (hcan : p.CanFire = true) (hw : h.World = some w)
    (hv : Val ≠ 0) :
    OnFire p h Val =
      ({ p with CanFire := false },
       [EngineCall.SpawnActor c (h.LeftMuzzleLocation.ComponentLocation + p.GunOffset)
          h.LeftMuzzleLocation.ComponentRotation,
        EngineCall.SpawnActor c (h.RightMuzzleLocation.ComponentLocation + p.GunOffset)
          h.RightMuzzleLocation.ComponentRotation,
        EngineCall.SetTimer p.FireRate]) := by
  have hf : decide (FMath.Abs Val ≠ 0) = true := (isFiring_iff Val).mpr hv
  simp only [OnFire, hcls, hcan, hw, hf, Bool.and_self, if_true]

/-- The outcome of `OnFire` when a guard fails: nothing happens. -/
theorem OnFire_noop (p : AAeroFightersPawn) (h : Host) (Val : ℚ)
    (hno : ¬ (Val ≠ 0 ∧ p.CanFire = true ∧ p.ProjectileClass ≠ none ∧ h.World ≠ none)) :
    OnFire p h Val = (p, []) := by
  unfold OnFire
  cases hcls : p.ProjectileClass with
  | none => rfl
  | some c =>
    cases hw : h.World with
    | none => simp
    | some w =>
      have hf : ¬ (Val ≠ 0 ∧ p.CanFire = true) := by
        intro hc
        exact hno ⟨hc.1, hc.2, by simp [hcls], by simp [hw]⟩
      have hb : (decide (FMath.Abs Val ≠ 0) && p.CanFire) = false := by
        rw [Bool.eq_false_iff]
        intro hb
        rw [Bool.and_eq_true] at hb
        exact hf ⟨(isFiring_iff Val).mp hb.1, hb.2⟩
      simp only [hb, Bool.false_eq_true, if_false]

/-- C4: the cooldown gate.  From a pawn that can fire and has a projectile class, with
a world available, `OnFire` with a nonzero value emits two spawn requests; an `OnFire`
issued right after it (any value, any host) emits nothing at all; and once
`ShotTimerExpired` has run, `OnFire` with a nonzero value emits exactly two spawn
requests again. -/
theorem cooldown_gate (p : AAeroFightersPawn) (h1 h2 h3 : Host) (v1 v2 v3 : ℚ)
    (hcan : p.CanFire = true) (hcls : p.ProjectileClass ≠ none)
    (hw1 : h1.World ≠ none) (hw3 : h3.World ≠ none) (hv1 : v1 ≠ 0) (hv3 : v3 ≠ 0) :
    (spawnRequests (OnFire p h1 v1).2).length = 2 ∧
      (OnFire (OnFire p h1 v1).1 h2 v2).2 = [] ∧
      (spawnRequests
        (OnFire (ShotTimerExpired (OnFire (OnFire p h1 v1).1 h2 v2).1).1 h3 v3).2).length = 2 := by
  obtain ⟨c, hc⟩ := Option.ne_none_iff_exists'.mp hcls
  obtain ⟨w1, hw1⟩ := Option.ne_none_iff_exists'.mp hw1
  obtain ⟨w3, hw3⟩ := Option.ne_none_iff_exists'.mp hw3
  have e1 := OnFire_fires p h1 v1 c w1 hc hcan hw1 hv1
  have e2 : OnFire (OnFire p h1 v1).1 h2 v2 = ((OnFire p h1 v1).1, []) := by
    apply OnFire_noop
    rw [e1]
    simp
  have e3 := OnFire_fires (ShotTimerExpired (OnFire (OnFire p h1 v1).1 h2 v2).1).1 h3 v3 c w3
    (by rw [e2, e1]; simpa [ShotTimerExpired] using hc) (by simp [ShotTimerExpired]) hw3 hv3
  refine ⟨?_, ?_, ?_⟩
  · rw [e1]; rfl
  · rw [e2]
  · rw [e3]; rfl

/-- C4, at the constructed pawn with a projectile class: fire, fire again, let the
timer expire, fire. -/
theorem cooldown_gate_witness :
    (spawnRequests (OnFire armedPawn (levelHost (some ⟨1 / 60⟩)) 1).2).length = 2 ∧
      (OnFire (OnFire armedPawn (levelHost (some ⟨1 / 60⟩)) 1).1
        (levelHost (some ⟨1 / 60⟩)) 1).2 = [] ∧
      (spawnRequests
        (OnFire (ShotTimerExpired (OnFire (OnFire armedPawn (levelHost (some ⟨1 / 60⟩)) 1).1
          (levelHost (some ⟨1 / 60⟩)) 1).1).1 (levelHost (some ⟨1 / 60⟩)) 1).2).length = 2 :=
  cooldown_gate armedPawn (levelHost (some ⟨1 / 60⟩)) (levelHost (some ⟨1 / 60⟩))
    (levelHost (some ⟨1 / 60⟩)) 1 1 1 rfl (by simp [armedPawn]) (by simp [levelHost])
    (by simp [levelHost]) one_ne_zero one_ne_zero

/-- C5, as stated, fails: the constructed pawn can fire and has a projectile class,
the value `1` is nonzero, yet with a null world `OnFire(1)` emits no spawn request,
schedules no timer and leaves `CanFire` true. -/
theorem fire_without_world :
    armedPawn.CanFire = true ∧ armedPawn.ProjectileClass ≠ none ∧ (1 : ℚ) ≠ 0 ∧
      OnFire armedPawn (levelHost none) 1 = (armedPawn, []) ∧
      spawnRequests (OnFire armedPawn (levelHost none) 1).2 = [] ∧
      (OnFire armedPawn (levelHost none) 1).1.CanFire = true := by
  have e : OnFire armedPawn (levelHost none) 1 = (armedPawn, []) :=
    OnFire_noop armedPawn (levelHost none) 1 (by simp [levelHost])
  refine ⟨rfl, by simp [armedPawn], one_ne_zero, e, ?_, ?_⟩
  · rw [e]; rfl
  · rw [e]; rfl

/-- C5, amended: for every pawn with `CanFire` true and a projectile class configured,
every host in which a world is available and every nonzero value, `OnFire(value)`
emits exactly two spawn requests, left then right, at the left muzzle's position plus
`GunOffset` and the right muzzle's position plus `GunOffset`, each with its muzzle's
orientation; it schedules the cooldown callback after `FireRate` seconds, sets
`CanFire` to false and changes no other member. -/
theorem successful_fire (p : AAeroFightersPawn) (h : Host) (Val : ℚ)
    (hcan : p.CanFire = true) (hcls : p.ProjectileClass ≠ none) (hw : h.World ≠ none)
    (hv : Val ≠ 0) :
    spawnRequests (OnFire p h Val).2 =
        [(h.LeftMuzzleLocation.ComponentLocation + p.GunOffset,
            h.LeftMuzzleLocation.ComponentRotation),
         (h.RightMuzzleLocation.ComponentLocation + p.GunOffset,
            h.RightMuzzleLocation.ComponentRotation)] ∧
      scheduledTimers (OnFire p h Val).2 = [p.FireRate] ∧
      (OnFire p h Val).2.length = 3 ∧
      (OnFire p h Val).1 = { p with CanFire := false } ∧
      (OnFire p h Val).1.CanFire = false := by
  obtain ⟨c, hc⟩ := Option.ne_none_iff_exists'.mp hcls
  obtain ⟨w, hw⟩ := Option.ne_none_iff_exists'.mp hw
  rw [OnFire_fires p h Val c w hc hcan hw hv]
  exact ⟨rfl, rfl, rfl, rfl, rfl⟩

/-- C5, the scenario: `OnFire(1.0)` on the constructed pawn (`CanFire` true,
`GunOffset = (200,0,0)`), muzzles at `(550,-650,-50)` and `(550,650,-50)`: two
requests at `(750,-650,-50)` and `(750,650,-50)`, and `CanFire` becomes false. -/
theorem successful_fire_witness :
    armedPawn.GunOffset = ⟨200, 0, 0⟩ ∧
      spawnRequests (OnFire armedPawn (levelHost (some ⟨1 / 60⟩)) 1).2 =
        [(⟨750, -650, -50⟩, ⟨0, 0, 0⟩), (⟨750, 650, -50⟩, ⟨0, 0, 0⟩)] ∧
      scheduledTimers (OnFire armedPawn (levelHost (some ⟨1 / 60⟩)) 1).2 = [1 / 10] ∧
      (OnFire armedPawn (levelHost (some ⟨1 / 60⟩)) 1).1.CanFire = false := by
  have t := successful_fire armedPawn (levelHost (some ⟨1 / 60⟩)) 1 rfl
    (by simp [armedPawn]) (by simp [levelHost]) one_ne_zero
  refine ⟨rfl, ?_, ?_, t.2.2.2.2⟩
  · rw [t.1]
    simp [levelHost, armedPawn, AAeroFightersPawn.ctor, FVector.add_def]
    norm_num
  · rw [t.2.1]
    simp [armedPawn, AAeroFightersPawn.ctor]

/-- C6: `OnFire(value)` emits spawn requests if and only if the value is nonzero,
`CanFire` is true, a projectile class is configured and a world is available; in
every other case it makes no engine call at all (no spawn request, no timer) and
returns the pawn unchanged. -/
theorem fire_iff_guards (p : AAeroFightersPawn) (h : Host) (Val : ℚ) :
    (spawnRequests (OnFire p h Val).2 ≠ [] ↔
        (Val ≠ 0 ∧ p.CanFire = true ∧ p.ProjectileClass ≠ none ∧ h.World ≠ none)) ∧
      (¬ (Val ≠ 0 ∧ p.CanFire = true ∧ p.ProjectileClass ≠ none ∧ h.World ≠ none) →
        OnFire p h Val = (p, []) ∧ spawnRequests (OnFire p h Val).2 = [] ∧
          scheduledTimers (OnFire p h Val).2 = [] ∧ (OnFire p h Val).1 = p) := by
  have hno : ¬ (Val ≠ 0 ∧ p.CanFire = true ∧ p.ProjectileClass ≠ none ∧ h.World ≠ none) →
      OnFire p h Val = (p, []) := OnFire_noop p h Val
  refine ⟨⟨?_, ?_⟩, ?_⟩
  · intro hs
    by_contra hc
    rw [hno hc] at hs
    exact hs rfl
  · rintro ⟨hv, hcan, hcls, hw⟩
    obtain ⟨c, hc⟩ := Option.ne_none_iff_exists'.mp hcls
    obtain ⟨w, hw⟩ := Option.ne_none_iff_exists'.mp hw
    rw [OnFire_fires p h Val c w hc hcan hw hv]
    simp [spawnRequests]
  · intro hc
    rw [hno hc]
    exact ⟨rfl, rfl, rfl, rfl⟩

/-- C6, at concrete inputs: the constructed pawn with a projectile class does nothing
on `OnFire(0)`. -/
theorem fire_iff_guards_witness :
    OnFire armedPawn (levelHost (some ⟨1 / 60⟩)) 0 = (armedPawn, []) ∧
      spawnRequests (OnFire armedPawn (levelHost (some ⟨1 / 60⟩)) 0).2 = [] ∧
      scheduledTimers (OnFire armedPawn (levelHost (some ⟨1 / 60⟩)) 0).2 = [] ∧
      (OnFire armedPawn (levelHost (some ⟨1 / 60⟩)) 0).1 = armedPawn :=
  (fire_iff_guards armedPawn (levelHost (some ⟨1 / 60⟩)) 0).2 (by simp)

/-! ## Yaw deadzone and roll assist -/

/-- C7: for every pawn (whatever its `IsTurning` flag and `CurrentRollSpeed`), every
value with `|value| ≤ 0.2`, every frame time of the input call and every `dt` of the
tick, `TurnRightInput(value)` returns, and the `Tick(dt)` after it requests a rotation
delta whose roll component is 0 and leaves `IsTurning` false. -/
theorem yaw_deadzone_no_roll (p : AAeroFightersPawn) (h : Host) (w : UWorld) (Val dt : ℚ)
    (hw : h.World = some w) (hv : |Val| ≤ 1 / 5) :
    ∃ q : AAeroFightersPawn,
      TurnRightInput p h Val = some (q, []) ∧
      q.IsTurning = false ∧
      (Tick q dt).2 =
        [EngineCall.AddActorLocalOffset ⟨q.CurrentForwardSpeed * dt, 0, 0⟩ true,
         EngineCall.AddActorLocalRotation
           ⟨q.CurrentPitchSpeed * dt, q.CurrentYawSpeed * dt, 0⟩,
         EngineCall.SuperTick dt] ∧
      (∀ r : FRotator, EngineCall.AddActorLocalRotation r ∈ (Tick q dt).2 → r.Roll = 0) ∧
      (Tick q dt).1.IsTurning = false := by
  have hdz : decide (FMath.Abs Val > 1 / 5) = false := by
    simp only [FMath.Abs, gt_iff_lt, decide_eq_false_iff_not, not_lt]
    exact hv
  refine ⟨_, by simp only [TurnRightInput, hw, hdz]; rfl, rfl, ?_, ?_, ?_⟩
  · simp [Tick]
  · intro r hr
    simp [Tick] at hr
    rw [hr]
  · simp [Tick]

/-- C7, at a concrete input: a pawn that is turning with roll rate 30 receives
`TurnRightInput(0.1)` and then `Tick(1/60)`. -/
theorem yaw_deadzone_no_roll_witness :
    ∃ q : AAeroFightersPawn,
      TurnRightInput { armedPawn with IsTurning := true, CurrentRollSpeed := 30 }
          (levelHost (some ⟨1 / 60⟩)) (1 / 10) = some (q, []) ∧
      q.IsTurning = false ∧
      (Tick q (1 / 60)).2 =
        [EngineCall.AddActorLocalOffset ⟨q.CurrentForwardSpeed * (1 / 60), 0, 0⟩ true,
         EngineCall.AddActorLocalRotation
           ⟨q.CurrentPitchSpeed * (1 / 60), q.CurrentYawSpeed * (1 / 60), 0⟩,
         EngineCall.SuperTick (1 / 60)] ∧
      (∀ r : FRotator,
        EngineCall.AddActorLocalRotation r ∈ (Tick q (1 / 60)).2 → r.Roll = 0) ∧
      (Tick q (1 / 60)).1.IsTurning = false :=
  yaw_deadzone_no_roll { armedPawn with IsTurning := true, CurrentRollSpeed := 30 }
    (levelHost (some ⟨1 / 60⟩)) ⟨1 / 60⟩ (1 / 10) (1 / 60) rfl
    (by rw [abs_of_pos] <;> norm_num)

/-- C10: `LoopRightInput(value)` sets the actor rotation if and only if `IsTurning` is
false and `|value| > 0.2`; the rotation it sets has the old roll plus `value`, the old
pitch and the old yaw, and differs from the old rotation; otherwise it makes no engine
call.  In both cases the pawn (roll rate, other angular rates, forward speed,
`IsTurning`, `CanFire` and every other member) is unchanged. -/
theorem roll_assist_gating (p : AAeroFightersPawn) (h : Host) (Val : ℚ) :
    LoopRightInput p h Val =
        (p, if p.IsTurning = false ∧ 1 / 5 < |Val| then
              [EngineCall.SetActorRotation
                ⟨h.ActorRotation.Pitch, h.ActorRotation.Yaw, h.ActorRotation.Roll + Val⟩]
            else []) ∧
      ((∃ r, EngineCall.SetActorRotation r ∈ (LoopRightInput p h Val).2) ↔
        (p.IsTurning = false ∧ 1 / 5 < |Val|)) ∧
      (∀ r, EngineCall.SetActorRotation r ∈ (LoopRightInput p h Val).2 →
        r.Roll = h.ActorRotation.Roll + Val ∧ r.Pitch = h.ActorRotation.Pitch ∧
          r.Yaw = h.ActorRotation.Yaw ∧ r ≠ h.ActorRotation) ∧
      (LoopRightInput p h Val).1 = p := by
  have main : LoopRightInput p h Val =
        (p, if p.IsTurning = false ∧ 1 / 5 < |Val| then
              [EngineCall.SetActorRotation
                ⟨h.ActorRotation.Pitch, h.ActorRotation.Yaw, h.ActorRotation.Roll + Val⟩]
            else []) := by
    unfold LoopRightInput
    by_cases hv : 1 / 5 < |Val|
    · have hd : decide (FMath.Abs Val > 1 / 5) = true := decide_eq_true hv
      cases hT : p.IsTurning
      · rw [hd, if_pos (show (true && !false) = true from rfl),
          if_pos (show false = false ∧ 1 / 5 < |Val| from ⟨rfl, hv⟩)]
        simp only [FRotator.GetComponentForAxis, FRotator.SetComponentForAxis, one_mul]
      · rw [hd, if_neg (show ¬ (true && !true) = true from Bool.false_ne_true),
          if_neg (show ¬ (true = false ∧ 1 / 5 < |Val|) from fun hc => Bool.noConfusion hc.1)]
    · have hd : decide (FMath.Abs Val > 1 / 5) = false := decide_eq_false hv
      rw [hd, if_neg (show ¬ (false && !p.IsTurning) = true by simp),
        if_neg (show ¬ (p.IsTurning = false ∧ 1 / 5 < |Val|) from fun hc => hv hc.2)]
  refine ⟨main, ?_, ?_, ?_⟩
  · rw [main]
    by_cases hc : p.IsTurning = false ∧ 1 / 5 < |Val|
    · rw [if_pos hc]
      exact ⟨fun _ => hc, fun _ => ⟨_, List.mem_singleton.mpr rfl⟩⟩
    · rw [if_neg hc]
      exact ⟨fun ⟨_, hr⟩ => absurd hr (List.not_mem_nil _), fun hc2 => absurd hc2 hc⟩
  · intro r hr
    rw [main] at hr
    by_cases hc : p.IsTurning = false ∧ 1 / 5 < |Val|
    · rw [if_pos hc, List.mem_singleton, EngineCall.SetActorRotation.injEq] at hr
      subst hr
      refine ⟨rfl, rfl, rfl, ?_⟩
      intro heq
      have hroll : h.ActorRotation.Roll + Val = h.ActorRotation.Roll := congrArg FRotator.Roll heq
      have hz : Val = 0 := by linarith
      rw [hz] at hc
      norm_num at hc
    · rw [if_neg hc] at hr
      exact absurd hr (List.not_mem_nil _)
  · rw [main]

/-! ## Thrust -/

/-- The acceleration `ThrustInput` picks, with the input test spelled out. -/
theorem thrust_acc (Val A : ℚ) :
    (if (!FMath.IsNearlyEqual Val 0) = true then Val * A else (-1 / 2) * A) =
      if SMALL_NUMBER < |Val| then Val * A else -(1 / 2) * A := by
  unfold FMath.IsNearlyEqual
  rw [sub_zero]
  by_cases hv : SMALL_NUMBER < |Val|
  · rw [if_pos hv, decide_eq_false (not_le.mpr hv)]
    rfl
  · rw [if_neg hv, decide_eq_true (not_lt.mp hv)]
    simp only [Bool.not_true, Bool.false_eq_true, if_false]
    ring

/-- The outcome of `ThrustInput` when the world is there. -/
theorem ThrustInput_some (p : AAeroFightersPawn) (h : Host) (w : UWorld) (Val : ℚ)
    (hw : h.World = some w) :
    ThrustInput p h Val =
      some ({ p with
              CurrentForwardSpeed := FMath.Clamp
                (p.CurrentForwardSpeed + w.DeltaSeconds *
                  (if SMALL_NUMBER < |Val| then Val * p.Acceleration
                   else -(1 / 2) * p.Acceleration))
                p.MinSpeed p.MaxSpeed }, []) := by
  simp only [ThrustInput, hw]
  rw [thrust_acc]

/-- C2: with a world available (the one that supplies the frame time `dt`),
`ThrustInput(value)` returns the pawn of the reference definition and makes no engine
call: the new `CurrentForwardSpeed` is the clamp of `CurrentForwardSpeed + a*dt` to
`[MinSpeed, MaxSpeed]`, where `a = value*Acceleration` when `value` is not nearly
equal to 0 and `a = -0.5*Acceleration` otherwise, and no other member changes.  The
clamp is the three-case one, which on a well-ordered range is `max lo (min x hi)`. -/
theorem ThrustInput_eq_reference (p : AAeroFightersPawn) (h : Host) (w : UWorld) (Val : ℚ)
    (hw : h.World = some w) :
    ThrustInput p h Val = some (Spec.applyThrust p Val w.DeltaSeconds, []) ∧
      Spec.applyThrust p Val w.DeltaSeconds =
        { p with
          CurrentForwardSpeed := Spec.clamp
            (p.CurrentForwardSpeed +
              (if FMath.IsNearlyEqual Val 0 = false then Val * p.Acceleration
               else -(1 / 2) * p.Acceleration) * w.DeltaSeconds)
            p.MinSpeed p.MaxSpeed } ∧
      (p.MinSpeed ≤ p.MaxSpeed →
        (Spec.applyThrust p Val w.DeltaSeconds).CurrentForwardSpeed =
          max p.MinSpeed
            (min (p.CurrentForwardSpeed +
                (if FMath.IsNearlyEqual Val 0 = false then Val * p.Acceleration
                 else -(1 / 2) * p.Acceleration) * w.DeltaSeconds) p.MaxSpeed)) := by
  have hacc : (if FMath.IsNearlyEqual Val 0 = false then Val * p.Acceleration
      else -(1 / 2) * p.Acceleration) =
      if SMALL_NUMBER < |Val| then Val * p.Acceleration else -(1 / 2) * p.Acceleration := by
    unfold FMath.IsNearlyEqual
    rw [sub_zero]
    by_cases hv : SMALL_NUMBER < |Val|
    · rw [if_pos hv, if_pos (decide_eq_false (not_le.mpr hv))]
    · rw [if_neg hv, decide_eq_true (not_lt.mp hv), if_neg Bool.noConfusion]
  refine ⟨?_, ?_, ?_⟩
  · rw [ThrustInput_some p h w Val hw, Clamp_eq_spec, mul_comm]
    rfl
  · rw [hacc]
    rfl
  · intro hle
    rw [hacc, ← Clamp_eq_max_min _ _ _ hle, Clamp_eq_spec]
    rfl

/-- C2, the scenario: `CurrentForwardSpeed = 500`, `MinSpeed = 500`, `MaxSpeed = 4000`,
`Acceleration = 500`; `ThrustInput(1.0)` with frame time `0.1` gives speed `550`. -/
theorem ThrustInput_eq_reference_witness :
    armedPawn.CurrentForwardSpeed = 500 ∧ armedPawn.MinSpeed = 500 ∧
      armedPawn.MaxSpeed = 4000 ∧ armedPawn.Acceleration = 500 ∧
      ThrustInput armedPawn (levelHost (some ⟨1 / 10⟩)) 1 =
        some ({ armedPawn with CurrentForwardSpeed := 550 }, []) := by
  refine ⟨rfl, rfl, rfl, rfl, ?_⟩
  rw [(ThrustInput_eq_reference armedPawn (levelHost (some ⟨1 / 10⟩)) ⟨1 / 10⟩ 1 rfl).1]
  have hs : SMALL_NUMBER < |(1 : ℚ)| := by
    rw [abs_one]; unfold SMALL_NUMBER; norm_num
  simp only [Spec.applyThrust, if_pos hs, armedPawn, AAeroFightersPawn.ctor, Spec.clamp]
  norm_num

/-! ## The speed range -/

/-- No call changes the limits of the speed range, and each leaves the speed in the
range when the range is well ordered and the speed was in it or the call is a
thrust input. -/
theorem step_speed (p q : AAeroFightersPawn) (h : Host) (c : Call) (cs : List EngineCall)
    (hs : step p h c = some (q, cs)) :
    q.MinSpeed = p.MinSpeed ∧ q.MaxSpeed = p.MaxSpeed ∧
      (SpeedInRange p → SpeedInRange q) := by
  cases c with
  | ThrustInput Val =>
    cases hw : h.World with
    | none => simp [step, ThrustInput, hw] at hs
    | some w =>
      rw [step, ThrustInput_some p h w Val hw, Option.some.injEq, Prod.mk.injEq] at hs
      rw [← hs.1]
      refine ⟨rfl, rfl, fun hin => ?_⟩
      exact Clamp_mem _ _ _ (le_trans hin.1 hin.2)
  | MoveUpInput Val =>
    cases hw : h.World with
    | none => simp [step, MoveUpInput, hw] at hs
    | some w =>
      simp only [step, MoveUpInput, hw, Option.some.injEq, Prod.mk.injEq] at hs
      rw [← hs.1]
      exact ⟨rfl, rfl, fun hin => hin⟩
  | LoopRightInput Val =>
    simp only [step, Option.some.injEq] at hs
    have hq : q = p := by
      have hfst : (LoopRightInput p h Val).1 = q := by rw [hs]
      rw [← hfst]
      unfold LoopRightInput
      dsimp only
      split_ifs <;> rfl
    rw [hq]
    exact ⟨rfl, rfl, fun hin => hin⟩
  | TurnRightInput Val =>
    cases hw : h.World with
    | none => simp [step, TurnRightInput, hw] at hs
    | some w =>
      simp only [step, TurnRightInput, hw, Option.some.injEq, Prod.mk.injEq] at hs
      rw [← hs.1]
      exact ⟨rfl, rfl, fun hin => hin⟩
  | OnFire Val =>
    simp only [step, Option.some.injEq] at hs
    have hq := congrArg Prod.fst hs
    simp only at hq
    rw [← hq]
    unfold OnFire
    cases p.ProjectileClass with
    | none => exact ⟨rfl, rfl, fun hin => hin⟩
    | some k =>
      cases h.World with
      | none =>
        simp only
        split_ifs <;> exact ⟨rfl, rfl, fun hin => hin⟩
      | some w =>
        simp only
        split_ifs <;> exact ⟨rfl, rfl, fun hin => hin⟩
  | ShotTimerExpired =>
    simp only [step, ShotTimerExpired, Option.some.injEq, Prod.mk.injEq] at hs
    rw [← hs.1]
    exact ⟨rfl, rfl, fun hin => hin⟩
  | Tick dt =>
    simp only [step, Tick, Option.some.injEq, Prod.mk.injEq] at hs
    rw [← hs.1]
    exact ⟨rfl, rfl, fun hin => hin⟩

/-- The invariant is carried along any sequence of calls that returns. -/
theorem run_speed (trace : List (Host × Call)) :
    ∀ p s : AAeroFightersPawn, run p trace = some s →
      s.MinSpeed = p.MinSpeed ∧ s.MaxSpeed = p.MaxSpeed ∧ (SpeedInRange p → SpeedInRange s) := by
  induction trace with
  | nil =>
    intro p s hr
    simp only [run, Option.some.injEq] at hr
    rw [← hr]
    exact ⟨rfl, rfl, fun hin => hin⟩
  | cons hc rest ih =>
    intro p s hr
    obtain ⟨h, c⟩ := hc
    cases hst : step p h c with
    | none => simp [run, hst] at hr
    | some o =>
      obtain ⟨q, cs⟩ := o
      simp only [run, hst] at hr
      have h1 := step_speed p q h c cs hst
      have h2 := ih q s hr
      exact ⟨h2.1.trans h1.1, h2.2.1.trans h1.2.1, fun hin => h2.2.2 (h1.2.2 hin)⟩

/-- A sequence of calls returns when every call in it sees a world. -/
theorem run_isSome (trace : List (Host × Call)) :
    ∀ p : AAeroFightersPawn, (∀ hc ∈ trace, hc.1.World ≠ none) → (run p trace).isSome = true := by
  induction trace with
  | nil => intro p _; rfl
  | cons hc rest ih =>
    intro p hall
    obtain ⟨h, c⟩ := hc
    have hw : h.World ≠ none := hall (h, c) (List.mem_cons_self _ _)
    obtain ⟨w, hw⟩ := Option.ne_none_iff_exists'.mp hw
    have hst : ∃ o, step p h c = some o := by
      cases c <;> simp [step, ThrustInput, MoveUpInput, TurnRightInput, hw]
    obtain ⟨o, ho⟩ := hst
    obtain ⟨q, cs⟩ := o
    simp only [run, ho]
    exact ih q (fun hc hmem => hall hc (List.mem_cons_of_mem _ hmem))

/-- C1: the speed-range invariant `MinSpeed ≤ CurrentForwardSpeed ≤ MaxSpeed`.
It holds in every state reached from the constructed pawn by any sequence of
`ThrustInput`, `MoveUpInput`, `LoopRightInput`, `TurnRightInput`, `OnFire`,
`ShotTimerExpired` and `Tick` calls, with any values, frame times and hosts; more
generally it is preserved by every such sequence from any state that has it, and the
limits never change; for any pawn with `MinSpeed ≤ MaxSpeed`, in the range or not,
it holds after `ThrustInput(value)` and still after the `Tick(dt)` that follows; and
a sequence of calls that all see a world does return a state. -/
theorem speed_range_invariant :
    (∀ (raw : AAeroFightersPawn) (trace : List (Host × Call)) (s : AAeroFightersPawn),
        run (AAeroFightersPawn.ctor raw) trace = some s → SpeedInRange s) ∧
      (∀ (p : AAeroFightersPawn) (trace : List (Host × Call)) (s : AAeroFightersPawn),
        SpeedInRange p → run p trace = some s →
          SpeedInRange s ∧ s.MinSpeed = p.MinSpeed ∧ s.MaxSpeed = p.MaxSpeed) ∧
      (∀ (p : AAeroFightersPawn) (h : Host) (w : UWorld) (Val dt : ℚ),
        p.MinSpeed ≤ p.MaxSpeed → h.World = some w →
          ∃ q : AAeroFightersPawn, ThrustInput p h Val = some (q, []) ∧
            SpeedInRange q ∧ SpeedInRange (Tick q dt).1) ∧
      (∀ (p : AAeroFightersPawn) (trace : List (Host × Call)),
        (∀ hc ∈ trace, hc.1.World ≠ none) → ∃ s, run p trace = some s) := by
  refine ⟨?_, ?_, ?_, ?_⟩
  · intro raw trace s hr
    refine (run_speed trace _ s hr).2.2 ?_
    unfold SpeedInRange AAeroFightersPawn.ctor
    norm_num
  · intro p trace s hin hr
    have hrs := run_speed trace p s hr
    exact ⟨hrs.2.2 hin, hrs.1, hrs.2.1⟩
  · intro p h w Val dt hle hw
    refine ⟨_, ThrustInput_some p h w Val hw, ?_, ?_⟩
    · exact Clamp_mem _ _ _ hle
    · exact Clamp_mem _ _ _ hle
  · intro p trace hall
    exact Option.isSome_iff_exists.mp (run_isSome trace p hall)

/-- C1, on a concrete run: the constructed pawn receives full thrust for a frame of
5 seconds, then a reverse thrust of -100 for a frame of 1 second, each followed by
a tick; the speeds are 3000 and then 500, inside `[500, 4000]`. -/
theorem speed_range_invariant_witness :
    run (AAeroFightersPawn.ctor zeroPawn)
        [(levelHost (some ⟨5⟩), Call.ThrustInput 1), (levelHost (some ⟨5⟩), Call.Tick 5),
         (levelHost (some ⟨1⟩), Call.ThrustInput (-100)), (levelHost (some ⟨1⟩), Call.Tick 1)] =
      some (AAeroFightersPawn.ctor zeroPawn) ∧
      SpeedInRange (AAeroFightersPawn.ctor zeroPawn) := by
  have hs1 : SMALL_NUMBER < |(1 : ℚ)| := by
    rw [abs_one]; unfold SMALL_NUMBER; norm_num
  have hs2 : SMALL_NUMBER < |(-100 : ℚ)| := by
    rw [abs_neg, abs_of_pos (by norm_num : (0 : ℚ) < 100)]; unfold SMALL_NUMBER; norm_num
  have hr : run (AAeroFightersPawn.ctor zeroPawn)
      [(levelHost (some ⟨5⟩), Call.ThrustInput 1), (levelHost (some ⟨5⟩), Call.Tick 5),
       (levelHost (some ⟨1⟩), Call.ThrustInput (-100)), (levelHost (some ⟨1⟩), Call.Tick 1)] =
      some (AAeroFightersPawn.ctor zeroPawn) := by
    simp only [run, step, ThrustInput_some _ (levelHost (some ⟨5⟩)) ⟨5⟩ 1 rfl,
      ThrustInput_some _ (levelHost (some ⟨1⟩)) ⟨1⟩ (-100) rfl, Tick, if_pos hs1, if_pos hs2,
      AAeroFightersPawn.ctor, zeroPawn, FMath.Clamp]
    norm_num
  exact ⟨hr, speed_range_invariant.1 zeroPawn _ _ hr⟩

/-! ## Passive deceleration in single precision -/

namespace Binary32

theorem ulp_pos (x : ℚ) : 0 < ulp x := zpow_pos (by norm_num) _

theorem exponent_ge (x : ℚ) : -126 ≤ exponent x := by
  unfold exponent
  split_ifs
  · exact le_refl _
  · exact le_max_right _ _

theorem floor_le_roundHalfEven (q : ℚ) : ⌊q⌋ ≤ roundHalfEven q := by
  unfold roundHalfEven
  split_ifs <;> omega

theorem roundHalfEven_le_floor_succ (q : ℚ) : roundHalfEven q ≤ ⌊q⌋ + 1 := by
  unfold roundHalfEven
  split_ifs <;> omega

theorem roundHalfEven_intCast (n : ℤ) : roundHalfEven (n : ℚ) = n := by
  unfold roundHalfEven
  rw [Int.floor_intCast, sub_self, if_pos (by norm_num)]

theorem roundHalfEven_le (q : ℚ) (n : ℤ) (h : q ≤ n) : roundHalfEven q ≤ n := by
  rcases eq_or_lt_of_le h with h | h
  · rw [h, roundHalfEven_intCast]
  · have : ⌊q⌋ < n := Int.floor_lt.mpr h
    have := roundHalfEven_le_floor_succ q
    omega

theorem le_roundHalfEven (q : ℚ) (n : ℤ) (h : (n : ℚ) ≤ q) : n ≤ roundHalfEven q :=
  le_trans (Int.le_floor.mpr h) (floor_le_roundHalfEven q)

theorem roundHalfEven_eq (q : ℚ) (n : ℤ) (h : |q - n| < 1 / 2) : roundHalfEven q = n := by
  rw [abs_lt] at h
  rcases le_or_lt (n : ℚ) q with hq | hq
  · have hf : ⌊q⌋ = n := Int.floor_eq_iff.mpr ⟨hq, by linarith⟩
    unfold roundHalfEven
    rw [hf, if_pos (by linarith)]
  · have hf : ⌊q⌋ = n - 1 := Int.floor_eq_iff.mpr ⟨by push_cast; linarith, by push_cast; linarith⟩
    unfold roundHalfEven
    rw [hf, if_neg (by push_cast; linarith), if_pos (by push_cast; linarith)]
    ring

/-- Every value lies below the top of its binade. -/
theorem abs_lt_zpow_exponent (x : ℚ) : |x| < (2 : ℚ) ^ (exponent x + 1) := by
  unfold exponent
  split_ifs with h0
  · rw [h0, abs_zero]
    exact zpow_pos (by norm_num) _
  · have h := Int.lt_zpow_succ_log_self (show 1 < 2 by norm_num) |x|
    rw [Nat.cast_ofNat] at h
    refine lt_of_lt_of_le h (zpow_le_zpow_right₀ (by norm_num) ?_)
    have := le_max_left (Int.log 2 |x|) (-126)
    omega

/-- A value whose binade is above the subnormal range reaches the bottom of its binade. -/
theorem zpow_exponent_le_abs (x : ℚ) (h : -126 < exponent x) : (2 : ℚ) ^ exponent x ≤ |x| := by
  unfold exponent at h ⊢
  split_ifs at h ⊢ with h0
  · omega
  · have hpos : 0 < |x| := abs_pos.mpr h0
    have hl : max (Int.log 2 |x|) (-126) = Int.log 2 |x| := by
      rcases le_total (Int.log 2 |x|) (-126) with hc | hc
      · rw [max_eq_right hc] at h; omega
      · exact max_eq_left hc
    rw [hl]
    have := Int.zpow_log_le_self (show 1 < 2 by norm_num) hpos
    rwa [Nat.cast_ofNat] at this

theorem exponent_eq (x : ℚ) (e : ℤ) (h1 : (2 : ℚ) ^ e ≤ |x|) (h2 : |x| < (2 : ℚ) ^ (e + 1))
    (he : -126 ≤ e) : exponent x = e := by
  have hpos : 0 < |x| := lt_of_lt_of_le (zpow_pos (by norm_num) _) h1
  have hl : Int.log 2 |x| = e := by
    apply le_antisymm
    · have := (Int.lt_zpow_iff_log_lt (show 1 < 2 by norm_num) hpos).mp
        (by rw [Nat.cast_ofNat]; exact h2)
      omega
    · exact (Int.zpow_le_iff_le_log (show 1 < 2 by norm_num) hpos).mp
        (by rw [Nat.cast_ofNat]; exact h1)
  unfold exponent
  rw [if_neg (abs_pos.mp hpos), hl]
  exact max_eq_left he

theorem exponent_le_of_abs_lt (y : ℚ) (e : ℤ) (h : |y| < (2 : ℚ) ^ (e + 1)) (he : -126 ≤ e) :
    exponent y ≤ e := by
  unfold exponent
  split_ifs with h0
  · exact he
  · apply max_le _ he
    have hpos : 0 < |y| := abs_pos.mpr h0
    have := (Int.lt_zpow_iff_log_lt (show 1 < 2 by norm_num) hpos).mp
      (by rw [Nat.cast_ofNat]; exact h)
    omega

theorem roundToNearest_zero : roundToNearest 0 = 0 := by
  unfold roundToNearest
  rw [zero_div]
  have : roundHalfEven 0 = 0 := by simpa using roundHalfEven_intCast 0
  rw [this]
  simp

/-- A multiple of its own unit in the last place is a fixed point of rounding. -/
theorem roundToNearest_mul_zpow (y : ℚ) (m j : ℤ) (hy : y = (m : ℚ) * (2 : ℚ) ^ j)
    (hj : exponent y - 23 ≤ j) : roundToNearest y = y := by
  obtain ⟨n, hn⟩ : ∃ n : ℕ, j = exponent y - 23 + n :=
    ⟨(j - (exponent y - 23)).toNat, by omega⟩
  have h2 : (2 : ℚ) ≠ 0 := by norm_num
  have hq : y / ulp y = ((m * 2 ^ n : ℤ) : ℚ) := by
    have hu : ulp y = (2 : ℚ) ^ (exponent y - 23) := rfl
    rw [div_eq_iff (ne_of_gt (ulp_pos y)), hu]
    conv_lhs => rw [hy, hn, zpow_add₀ h2, zpow_natCast]
    push_cast
    ring
  unfold roundToNearest
  rw [hq, roundHalfEven_intCast, ← hq]
  exact div_mul_cancel₀ _ (ne_of_gt (ulp_pos y))

/-- The textbook finite binary32 values `m * 2^j`, `|m| < 2^24`, `j ≥ -149`, are fixed
points of rounding. -/
theorem roundToNearest_of_significand (y : ℚ) (m j : ℤ) (hy : y = (m : ℚ) * (2 : ℚ) ^ j)
    (hm : |m| < 2 ^ 24) (hj : -149 ≤ j) : roundToNearest y = y := by
  apply roundToNearest_mul_zpow y m j hy
  have hle : exponent y ≤ j + 23 := by
    apply exponent_le_of_abs_lt _ _ _ (by omega)
    rw [hy, abs_mul, abs_of_pos (zpow_pos (by norm_num : (0 : ℚ) < 2) j),
      show j + 23 + 1 = 24 + j by ring, zpow_add₀ (by norm_num : (2 : ℚ) ≠ 0)]
    apply mul_lt_mul_of_pos_right _ (zpow_pos (by norm_num) j)
    have : ((|m| : ℤ) : ℚ) < ((2 ^ 24 : ℤ) : ℚ) := Int.cast_lt.mpr hm
    push_cast at this
    rw [show (24 : ℤ) = ((24 : ℕ) : ℤ) by norm_num, zpow_natCast]
    exact this
  omega

/-- The definition of rounding, with the unit in the last place spelled out. -/
theorem roundToNearest_def (x : ℚ) :
    roundToNearest x = (roundHalfEven (x / ulp x) : ℚ) * (2 : ℚ) ^ (exponent x - 23) := rfl

/-- The top of the binade is `2^24` units in the last place. -/
theorem zpow_succ_exponent (x : ℚ) : (2 : ℚ) ^ (exponent x + 1) = 2 ^ 24 * ulp x := by
  unfold ulp
  rw [show exponent x + 1 = 24 + (exponent x - 23) by ring, zpow_add₀ (by norm_num : (2 : ℚ) ≠ 0)]
  norm_num

/-- The bottom of the binade is `2^23` units in the last place. -/
theorem zpow_exponent (x : ℚ) : (2 : ℚ) ^ exponent x = 2 ^ 23 * ulp x := by
  unfold ulp
  rw [show exponent x = 23 + (exponent x - 23) by ring, zpow_add₀ (by norm_num : (2 : ℚ) ≠ 0)]
  norm_num

/-- The rounded significand has at most 24 bits, or is `2^24` (the next binade). -/
theorem abs_significand_le (x : ℚ) : |roundHalfEven (x / ulp x)| ≤ 2 ^ 24 := by
  have hu := ulp_pos x
  have hlt := abs_lt_zpow_exponent x
  rw [zpow_succ_exponent, abs_lt] at hlt
  rw [abs_le]
  constructor
  · have : ((-(2 ^ 24) : ℤ) : ℚ) ≤ x / ulp x := by
      rw [le_div_iff₀ hu]
      push_cast
      linarith
    exact le_roundHalfEven _ _ this
  · have : x / ulp x ≤ ((2 ^ 24 : ℤ) : ℚ) := by
      rw [div_le_iff₀ hu]
      push_cast
      linarith
    exact roundHalfEven_le _ _ this

/-- Rounding is idempotent: a rounded value is a fixed point. -/
theorem roundToNearest_idem (x : ℚ) : roundToNearest (roundToNearest x) = roundToNearest x := by
  have hk := abs_significand_le x
  have hE := exponent_ge x
  have hu := ulp_pos x
  set k := roundHalfEven (x / ulp x) with hkdef
  have hy : roundToNearest x = (k : ℚ) * (2 : ℚ) ^ (exponent x - 23) := rfl
  rcases lt_or_eq_of_le hk with hlt | heq
  · exact roundToNearest_of_significand _ k (exponent x - 23) hy hlt (by omega)
  · -- the significand is `±2^24`: the value is `±2^(e+1)`
    have hcases : k = 2 ^ 24 ∨ k = -(2 ^ 24) := by
      rcases abs_cases k with ⟨h1, _⟩ | ⟨h1, _⟩ <;> [left; right] <;> omega
    have h2 : (2 : ℚ) ≠ 0 := by norm_num
    have hpow : (2 : ℚ) ^ (exponent x + 1) = 2 ^ 24 * (2 : ℚ) ^ (exponent x - 23) :=
      zpow_succ_exponent x
    rcases hcases with hc | hc
    · refine roundToNearest_of_significand _ 1 (exponent x + 1) ?_ (by norm_num) (by omega)
      rw [hy, hc, hpow]
      push_cast
      ring
    · refine roundToNearest_of_significand _ (-1) (exponent x + 1) ?_ (by norm_num) (by omega)
      rw [hy, hc, hpow]
      push_cast
      ring

/-- Rounding does not cross a binary32 value: what is at most a fixed point of rounding
rounds to at most that fixed point. -/
theorem roundToNearest_le (x c : ℚ) (hc : roundToNearest c = c) (hxc : x ≤ c) :
    roundToNearest x ≤ c := by
  have hu := ulp_pos x
  rcases le_or_lt (exponent x) (exponent c) with he | he
  · -- `c` is a whole number of units in the last place of `x`
    obtain ⟨n, hn⟩ : ∃ n : ℕ, exponent c - 23 = exponent x - 23 + n :=
      ⟨(exponent c - exponent x).toNat, by omega⟩
    have hcm : c = ((roundHalfEven (c / ulp c) * 2 ^ n : ℤ) : ℚ) * ulp x := by
      conv_lhs => rw [← hc, roundToNearest_def, hn, zpow_add₀ (by norm_num : (2 : ℚ) ≠ 0),
        zpow_natCast]
      unfold ulp
      push_cast
      ring
    have hq : x / ulp x ≤ ((roundHalfEven (c / ulp c) * 2 ^ n : ℤ) : ℚ) := by
      rw [div_le_iff₀ hu, ← hcm]
      exact hxc
    have := roundHalfEven_le _ _ hq
    rw [hcm]
    unfold roundToNearest
    exact mul_le_mul_of_nonneg_right (Int.cast_le.mpr this) (le_of_lt hu)
  · -- `c` lies in a lower binade than `x`, so `x ≤ -2^e ≤ c`
    have hEx : -126 < exponent x := lt_of_le_of_lt (exponent_ge c) he
    have hx := zpow_exponent_le_abs x hEx
    have hcl := abs_lt_zpow_exponent c
    have hmono : (2 : ℚ) ^ (exponent c + 1) ≤ (2 : ℚ) ^ exponent x :=
      zpow_le_zpow_right₀ (by norm_num) (by omega)
    have hcx : |c| < |x| := lt_of_lt_of_le hcl (le_trans hmono hx)
    have hxneg : x < 0 := by
      by_contra hnn
      push_neg at hnn
      rw [abs_of_nonneg hnn, abs_of_nonneg (le_trans hnn hxc)] at hcx
      linarith
    rw [abs_of_neg hxneg] at hx
    have hq : x / ulp x ≤ ((-(2 ^ 23) : ℤ) : ℚ) := by
      rw [div_le_iff₀ hu]
      push_cast
      rw [zpow_exponent] at hx
      linarith
    have hr := roundHalfEven_le _ _ hq
    have hr2 : roundToNearest x ≤ ((-(2 ^ 23) : ℤ) : ℚ) * ulp x := by
      unfold roundToNearest
      exact mul_le_mul_of_nonneg_right (Int.cast_le.mpr hr) (le_of_lt hu)
    have hcabs : -|c| ≤ c := neg_abs_le c
    push_cast at hr2
    rw [zpow_exponent] at hmono
    linarith

/-- Rounding keeps the sign: a value at least 0 does not round below 0. -/
theorem roundToNearest_nonneg (x : ℚ) (hx : 0 ≤ x) : 0 ≤ roundToNearest x := by
  unfold roundToNearest
  apply mul_nonneg _ (le_of_lt (ulp_pos x))
  have : ((0 : ℤ) : ℚ) ≤ x / ulp x := by
    rw [Int.cast_zero]
    exact div_nonneg hx (le_of_lt (ulp_pos x))
  exact Int.cast_nonneg.mpr (le_roundHalfEven _ _ this)

/-! ### The thrust call with no input -/

theorem ofExact_of_isFloat (c : ℚ) (hc : IsFloat c) : ofExact c = Value.finite c := by
  unfold ofExact
  rw [hc.1, if_neg (not_le.mpr hc.2)]

theorem isFloat_zero : IsFloat 0 := ⟨roundToNearest_zero, by norm_num⟩

/-- Zero is nearly equal to zero: `ThrustInput(0)` sees no input. -/
theorem isNearlyEqual_zero : IsNearlyEqual (.finite 0) (.finite 0) = true := by
  have h0 : (Value.finite 0).sub (.finite 0) = .finite 0 := by
    show ofExact (0 + -0) = _
    rw [neg_zero, add_zero]
    exact ofExact_of_isFloat 0 isFloat_zero
  have hr := roundToNearest_nonneg (1 / 100000000) (by norm_num)
  unfold IsNearlyEqual
  rw [h0]
  show Value.le (.finite |0|) SMALL_NUMBER = true
  unfold SMALL_NUMBER ofExact
  split_ifs
  · rw [decide_eq_false (not_lt.mpr hr)]
    rfl
  · show decide (|0| ≤ _) = true
    rw [abs_zero]
    exact decide_eq_true hr

/-- An exact result at most 0 rounds to a `float` at most 0. -/
theorem ofExact_nonpos (x : ℚ) (hx : x ≤ 0) : (ofExact x).NonPos := by
  have hr : roundToNearest x ≤ 0 := roundToNearest_le x 0 roundToNearest_zero hx
  unfold ofExact
  split_ifs with hbig
  · show decide (roundToNearest x < 0) = true
    apply decide_eq_true
    rcases eq_or_lt_of_le hr with h0 | hneg
    · rw [h0, abs_zero] at hbig
      norm_num at hbig
    · exact hneg
  · exact hr

/-- A positive finite `float` times a `float` at most 0 is at most 0. -/
theorem mul_pos_nonpos (a : ℚ) (v : Value) (ha : 0 < a) (hv : v.NonPos) :
    ((Value.finite a).mul v).NonPos := by
  cases v with
  | finite c => exact ofExact_nonpos _ (mul_nonpos_of_nonneg_of_nonpos (le_of_lt ha) hv)
  | inf s =>
    have hs : s = true := hv
    show (if a = 0 then Value.nan else Value.inf (xor (decide (a < 0)) s)).NonPos
    rw [if_neg (ne_of_gt ha), decide_eq_false (not_lt.mpr (le_of_lt ha)), hs]
    rfl
  | nan => exact hv

/-- A finite `float` plus a `float` at most 0 is negative infinity or a `float` that is
not above the first summand. -/
theorem add_nonpos (s : ℚ) (v : Value) (hs : IsFloat s) (hv : v.NonPos) :
    (Value.finite s).add v = Value.inf true ∨
      ∃ r, (Value.finite s).add v = Value.finite r ∧ r ≤ s ∧ roundToNearest r = r := by
  cases v with
  | finite d =>
    have hd : d ≤ 0 := hv
    have hr : roundToNearest (s + d) ≤ s := roundToNearest_le _ s hs.1 (by linarith)
    show ofExact (s + d) = _ ∨ ∃ r, ofExact (s + d) = _ ∧ _
    unfold ofExact
    split_ifs with hbig
    · left
      have hneg : roundToNearest (s + d) < 0 := by
        by_contra hnn
        push_neg at hnn
        rw [abs_of_nonneg hnn] at hbig
        have := (abs_lt.mp hs.2).2
        linarith
      rw [decide_eq_true hneg]
    · right
      exact ⟨_, rfl, hr, roundToNearest_idem _⟩
  | inf t =>
    have ht : t = true := hv
    left
    rw [ht]
    rfl
  | nan => exact absurd hv id

/-- The clamp of any `float` to a finite range is finite. -/
theorem Clamp_finite (X : Value) (lo hi : ℚ) :
    ∃ s, Clamp X (.finite lo) (.finite hi) = Value.finite s := by
  unfold Clamp
  split_ifs with h1 h2
  · exact ⟨lo, rfl⟩
  · cases X with
    | finite x => exact ⟨x, rfl⟩
    | inf t => exact absurd (show t = true from h2) h1
    | nan => exact absurd (show false = true from h2) Bool.false_ne_true
  · exact ⟨hi, rfl⟩

/-- With a world available the single-precision `ThrustInput` returns, whatever the
value and the members of the pawn, and changes the forward speed only. -/
theorem ThrustInput_returns (p : AAeroFightersPawn) (h : Host) (w : UWorld) (Val : ℚ)
    (hw : h.World = some w) :
    ∃ s, ThrustInput p h Val = some ({ p with CurrentForwardSpeed := s }, []) := by
  simp only [ThrustInput, hw]
  obtain ⟨s, hs⟩ := Clamp_finite
    ((Value.finite p.CurrentForwardSpeed).add ((Value.finite w.DeltaSeconds).mul
      (if (!IsNearlyEqual (.finite Val) (.finite 0)) = true
        then (Value.finite Val).mul (.finite p.Acceleration)
        else (Value.finite (-1 / 2)).mul (.finite p.Acceleration)))) p.MinSpeed p.MaxSpeed
  rw [hs]
  exact ⟨s, rfl⟩

/-- The outcome of the single-precision `ThrustInput` on a negligible value, spelled
out. -/
theorem ThrustInput_noInput (p : AAeroFightersPawn) (h : Host) (w : UWorld) (Val : ℚ)
    (hw : h.World = some w) (s : ℚ)
    (hb : IsNearlyEqual (.finite Val) (.finite 0) = true)
    (hc : Clamp ((Value.finite p.CurrentForwardSpeed).add ((Value.finite w.DeltaSeconds).mul
        ((Value.finite (-1 / 2)).mul (.finite p.Acceleration))))
      (.finite p.MinSpeed) (.finite p.MaxSpeed) = Value.finite s) :
    ThrustInput p h Val = some ({ p with CurrentForwardSpeed := s }, []) := by
  simp only [ThrustInput, hw]
  rw [hb, Bool.not_true, if_neg Bool.false_ne_true, hc]

/-- The outcome of the single-precision `ThrustInput(0)`, spelled out. -/
theorem ThrustInput_zero (p : AAeroFightersPawn) (h : Host) (w : UWorld)
    (hw : h.World = some w) (s : ℚ)
    (hc : Clamp ((Value.finite p.CurrentForwardSpeed).add ((Value.finite w.DeltaSeconds).mul
        ((Value.finite (-1 / 2)).mul (.finite p.Acceleration))))
      (.finite p.MinSpeed) (.finite p.MaxSpeed) = Value.finite s) :
    ThrustInput p h 0 = some ({ p with CurrentForwardSpeed := s }, []) :=
  ThrustInput_noInput p h w 0 hw s isNearlyEqual_zero hc

/-- One single-precision `ThrustInput(0)` call from a speed in the range: it returns,
the new speed is a `float` between `MinSpeed` and the old speed, and nothing else
changes. -/
theorem thrust_zero_step (p : AAeroFightersPawn) (h : Host) (w : UWorld)
    (hw : h.World = some w) (hdt : 0 < w.DeltaSeconds) (hacc : 0 < p.Acceleration)
    (hin : SpeedInRange p) (hs : IsFloat p.CurrentForwardSpeed) (hm : IsFloat p.MinSpeed) :
    ∃ s, ThrustInput p h 0 = some ({ p with CurrentForwardSpeed := s }, []) ∧
      p.MinSpeed ≤ s ∧ s ≤ p.CurrentForwardSpeed ∧ IsFloat s := by
  have hA : ((Value.finite (-1 / 2)).mul (.finite p.Acceleration)).NonPos :=
    ofExact_nonpos _ (by linarith)
  have hP := mul_pos_nonpos w.DeltaSeconds _ hdt hA
  rcases add_nonpos p.CurrentForwardSpeed _ hs hP with hX | ⟨r, hX, hrs, hrr⟩
  · refine ⟨p.MinSpeed, ThrustInput_zero p h w hw _ ?_, le_refl _, hin.1, hm⟩
    rw [hX]
    rfl
  · by_cases h1 : r < p.MinSpeed
    · refine ⟨p.MinSpeed, ThrustInput_zero p h w hw _ ?_, le_refl _, hin.1, hm⟩
      rw [hX]
      unfold Clamp
      rw [if_pos (show (Value.finite r).lt (.finite p.MinSpeed) = true from decide_eq_true h1)]
    · by_cases h2 : r < p.MaxSpeed
      · refine ⟨r, ThrustInput_zero p h w hw _ ?_, not_lt.mp h1, hrs, hrr, ?_⟩
        · rw [hX]
          unfold Clamp
          rw [if_neg (show ¬ (Value.finite r).lt (.finite p.MinSpeed) = true from
              fun hc => h1 (of_decide_eq_true hc)),
            if_pos (show (Value.finite r).lt (.finite p.MaxSpeed) = true from decide_eq_true h2)]
        · have ha := abs_lt.mp hs.2
          have hb := abs_lt.mp hm.2
          rw [abs_lt]
          constructor
          · linarith [not_lt.mp h1]
          · linarith
      · have hmax : p.MaxSpeed = p.CurrentForwardSpeed :=
          le_antisymm (le_trans (not_lt.mp h2) hrs) hin.2
        refine ⟨p.MaxSpeed, ThrustInput_zero p h w hw _ ?_, le_trans hin.1 hin.2,
          le_of_eq hmax, by rw [hmax]; exact hs⟩
        rw [hX]
        unfold Clamp
        rw [if_neg (show ¬ (Value.finite r).lt (.finite p.MinSpeed) = true from
            fun hc => h1 (of_decide_eq_true hc)),
          if_neg (show ¬ (Value.finite r).lt (.finite p.MaxSpeed) = true from
            fun hc => h2 (of_decide_eq_true hc))]

/-! ### Repeated thrust calls with no input -/

/-- Every fixed point of rounding is a whole multiple of `2^-149`. -/
theorem grid_of_roundToNearest_eq (c : ℚ) (hc : roundToNearest c = c) :
    ∃ z : ℤ, c = (z : ℚ) * (2 : ℚ) ^ (-149 : ℤ) := by
  obtain ⟨n, hn⟩ : ∃ n : ℕ, exponent c - 23 = -149 + n :=
    ⟨(exponent c + 126).toNat, by have := exponent_ge c; omega⟩
  refine ⟨roundHalfEven (c / ulp c) * 2 ^ n, ?_⟩
  conv_lhs => rw [← hc, roundToNearest_def, hn, zpow_add₀ (by norm_num : (2 : ℚ) ≠ 0),
    zpow_natCast]
  push_cast
  ring

/-- A non-increasing sequence of multiples of `2^-149` that is bounded below stops
changing. -/
theorem eventually_const_of_grid (f : ℕ → ℚ) (lo : ℚ) (hanti : ∀ n, f (n + 1) ≤ f n)
    (hlo : ∀ n, lo ≤ f n) (hgrid : ∀ n, ∃ z : ℤ, f n = (z : ℚ) * (2 : ℚ) ^ (-149 : ℤ)) :
    ∃ N, ∀ n, N ≤ n → f n = f N := by
  have hpos : (0 : ℚ) < (2 : ℚ) ^ (-149 : ℤ) := zpow_pos (by norm_num) _
  have hbdd : ∃ b : ℤ, ∀ z : ℤ, (∃ n, f n = (z : ℚ) * (2 : ℚ) ^ (-149 : ℤ)) → b ≤ z := by
    refine ⟨⌊lo / (2 : ℚ) ^ (-149 : ℤ)⌋, ?_⟩
    rintro z ⟨n, hz⟩
    have h1 : lo / (2 : ℚ) ^ (-149 : ℤ) ≤ z := by
      rw [div_le_iff₀ hpos, ← hz]
      exact hlo n
    exact Int.cast_le.mp (le_trans (Int.floor_le _) h1)
  have hinh : ∃ z : ℤ, ∃ n, f n = (z : ℚ) * (2 : ℚ) ^ (-149 : ℤ) := by
    obtain ⟨z, hz⟩ := hgrid 0
    exact ⟨z, 0, hz⟩
  obtain ⟨lb, ⟨N, hN⟩, hmin⟩ := Int.exists_least_of_bdd hbdd hinh
  refine ⟨N, fun n hn => le_antisymm (antitone_nat_of_succ_le hanti hn) ?_⟩
  obtain ⟨z, hz⟩ := hgrid n
  rw [hN, hz]
  exact mul_le_mul_of_nonneg_right (Int.cast_le.mpr (hmin z ⟨n, hz⟩)) (le_of_lt hpos)

/-- The next coasting state is the one the thrust call returns. -/
theorem coast_succ (p q : AAeroFightersPawn) (h : Host) (n : ℕ) (cs : List EngineCall)
    (hq : ThrustInput (coast p h n) h 0 = some (q, cs)) : coast p h (n + 1) = q := by
  simp only [coast, hq]

/-- A state that a thrust call with no input returns unchanged is never left. -/
theorem coast_fixed (p : AAeroFightersPawn) (h : Host)
    (hfix : ThrustInput p h 0 = some (p, [])) : ∀ n, coast p h n = p := by
  intro n
  induction n with
  | zero => rfl
  | succ n ih =>
    apply coast_succ p p h n []
    rw [ih]
    exact hfix

/-- Along the coasting states the handling parameters stay, the speed stays a `float`
in the range, each call returns the next state, and the speed does not rise. -/
theorem coast_inv (p : AAeroFightersPawn) (h : Host) (w : UWorld)
    (hw : h.World = some w) (hdt : 0 < w.DeltaSeconds) (hacc : 0 < p.Acceleration)
    (hin : SpeedInRange p) (hs : IsFloat p.CurrentForwardSpeed) (hm : IsFloat p.MinSpeed)
    (n : ℕ) :
    ((coast p h n).Acceleration = p.Acceleration ∧ (coast p h n).MinSpeed = p.MinSpeed ∧
        SpeedInRange (coast p h n) ∧ IsFloat (coast p h n).CurrentForwardSpeed) ∧
      ThrustInput (coast p h n) h 0 = some (coast p h (n + 1), []) ∧
      (coast p h (n + 1)).CurrentForwardSpeed ≤ (coast p h n).CurrentForwardSpeed := by
  have step : ∀ q : AAeroFightersPawn,
      (q.Acceleration = p.Acceleration ∧ q.MinSpeed = p.MinSpeed ∧
        SpeedInRange q ∧ IsFloat q.CurrentForwardSpeed) →
      ∃ q', ThrustInput q h 0 = some (q', []) ∧
        (q'.Acceleration = p.Acceleration ∧ q'.MinSpeed = p.MinSpeed ∧
          SpeedInRange q' ∧ IsFloat q'.CurrentForwardSpeed) ∧
        q'.CurrentForwardSpeed ≤ q.CurrentForwardSpeed := by
    rintro q ⟨ha, hmin, hr, hf⟩
    obtain ⟨s, hstep, h1, h2, h3⟩ :=
      thrust_zero_step q h w hw hdt (by rw [ha]; exact hacc) hr hf (by rw [hmin]; exact hm)
    exact ⟨_, hstep, ⟨ha, hmin, ⟨h1, le_trans h2 hr.2⟩, h3⟩, h2⟩
  have inv : ∀ k, (coast p h k).Acceleration = p.Acceleration ∧
      (coast p h k).MinSpeed = p.MinSpeed ∧ SpeedInRange (coast p h k) ∧
      IsFloat (coast p h k).CurrentForwardSpeed := by
    intro k
    induction k with
    | zero => exact ⟨rfl, rfl, hin, hs⟩
    | succ k ih =>
      obtain ⟨q', hq', hinv, _⟩ := step _ ih
      rw [coast_succ p q' h k [] hq']
      exact hinv
  obtain ⟨q', hq', _, hle⟩ := step _ (inv n)
  rw [coast_succ p q' h n [] hq']
  exact ⟨inv n, hq', hle⟩

/-- The product of finite `float`s is the rounded exact product. -/
theorem mul_finite (a b : ℚ) : (Value.finite a).mul (.finite b) = ofExact (a * b) := rfl

/-- The sum of finite `float`s is the rounded exact sum. -/
theorem add_finite (a b : ℚ) : (Value.finite a).add (.finite b) = ofExact (a + b) := rfl

/-- The `float` an exact result rounds to, from the binade of the result and the
integer nearest to its significand. -/
theorem ofExact_eq (x : ℚ) (e k : ℤ) (h1 : (2 : ℚ) ^ e ≤ |x|) (h2 : |x| < (2 : ℚ) ^ (e + 1))
    (he : -126 ≤ e) (hk : |x / (2 : ℚ) ^ (e - 23) - k| < 1 / 2)
    (hfin : |(k : ℚ) * (2 : ℚ) ^ (e - 23)| < 2 ^ 128) :
    ofExact x = Value.finite ((k : ℚ) * (2 : ℚ) ^ (e - 23)) := by
  have hr : roundToNearest x = (k : ℚ) * (2 : ℚ) ^ (e - 23) := by
    unfold roundToNearest ulp
    rw [exponent_eq x e h1 h2 he, roundHalfEven_eq _ k hk]
  unfold ofExact
  rw [hr, if_neg (not_le.mpr hfin)]

/-- The clamp of a finite `float` inside the range is that `float`. -/
theorem Clamp_inside (x lo hi : ℚ) (h1 : ¬ x < lo) (h2 : x < hi) :
    Clamp (.finite x) (.finite lo) (.finite hi) = Value.finite x := by
  unfold Clamp
  rw [if_neg (show ¬ (Value.finite x).lt (.finite lo) = true from
      fun hc => h1 (of_decide_eq_true hc)),
    if_pos (show (Value.finite x).lt (.finite hi) = true from decide_eq_true h2)]

theorem isFloat_1000 : IsFloat 1000 :=
  ⟨roundToNearest_of_significand 1000 1000 0 (by norm_num) (by norm_num) (by norm_num),
    by norm_num⟩

theorem isFloat_500 : IsFloat 500 :=
  ⟨roundToNearest_of_significand 500 500 0 (by norm_num) (by norm_num) (by norm_num),
    by norm_num⟩

/-- The new speed at speed 1000 with frame time `2^-23` and acceleration 500: the
decrement `250 * 2^-23` is less than half the spacing `2^-14` of `float`s at 1000, so the
sum rounds back to 1000. -/
theorem stall_clamp :
    Clamp ((Value.finite 1000).add ((Value.finite (1 / 8388608)).mul
        ((Value.finite (-1 / 2)).mul (.finite 500))))
      (.finite 500) (.finite 4000) = Value.finite 1000 := by
  have hA : (Value.finite (-1 / 2)).mul (.finite 500) = Value.finite (-250) := by
    rw [mul_finite, show ((-1 / 2 : ℚ) * 500) = -250 by norm_num]
    refine ofExact_of_isFloat _ ⟨roundToNearest_of_significand _ (-250) 0 (by norm_num)
      (by norm_num) (by norm_num), by norm_num⟩
  have hP : (Value.finite (1 / 8388608)).mul (.finite (-250)) = Value.finite (-125 / 4194304) := by
    rw [mul_finite, show ((1 / 8388608 : ℚ) * -250) = -125 / 4194304 by norm_num]
    refine ofExact_of_isFloat _ ⟨roundToNearest_of_significand _ (-125) (-22) ?_
      (by norm_num) (by norm_num), ?_⟩
    · rw [zpow_neg]; norm_num
    · rw [abs_lt]; constructor <;> norm_num
  have hS : (Value.finite 1000).add (.finite (-125 / 4194304)) = Value.finite 1000 := by
    rw [add_finite, ofExact_eq (1000 + -125 / 4194304) 9 16384000]
    · norm_num
    · rw [abs_of_pos (by norm_num)]; norm_num
    · rw [abs_of_pos (by norm_num)]; norm_num
    · norm_num
    · norm_num [abs_lt]
    · norm_num [abs_lt]
  rw [hA, hP, hS]
  exact Clamp_inside 1000 500 4000 (by norm_num) (by norm_num)

end Binary32

/-! ## Pitch smoothing -/

/-- The outcome of `MoveUpInput` when the world is there, with the target of the
specification. -/
theorem MoveUpInput_some (p : AAeroFightersPawn) (h : Host) (w : UWorld) (Val : ℚ)
    (hw : h.World = some w) :
    MoveUpInput p h Val =
      some ({ p with
              CurrentPitchSpeed := p.CurrentPitchSpeed +
                (Spec.targetPitchRate p Val - p.CurrentPitchSpeed) *
                  min 1 (2 * w.DeltaSeconds) }, []) := by
  have hT : Val * p.TurnSpeed * (-1) + FMath.Abs p.CurrentYawSpeed * (-1 / 5) =
      Spec.targetPitchRate p Val := by
    unfold Spec.targetPitchRate FMath.Abs
    ring
  simp only [MoveUpInput, hw, FMath.FInterpTo, hT]

/-- One pitch call takes the `n`-th pitch state to the next. -/
theorem pitch_step (p : AAeroFightersPawn) (h : Host) (w : UWorld) (Val : ℚ) (n : ℕ)
    (hw : h.World = some w) :
    MoveUpInput (pitchState p Val w.DeltaSeconds n) h Val =
      some (pitchState p Val w.DeltaSeconds (n + 1), []) := by
  rw [MoveUpInput_some _ h w Val hw]
  have hT : Spec.targetPitchRate (pitchState p Val w.DeltaSeconds n) Val =
      Spec.targetPitchRate p Val := rfl
  rw [hT]
  simp only [pitchState, pow_succ]
  congr 3
  ring

/-- The blend factor `min(1, 2*dt)` lies in `[0, 1]` for `dt ≥ 0`. -/
theorem blend_mem (dt : ℚ) (hdt : 0 ≤ dt) :
    0 ≤ min 1 (2 * dt) ∧ min 1 (2 * dt) ≤ 1 :=
  ⟨le_min zero_le_one (by linarith), min_le_left _ _⟩

/-- C9: pitch smoothing, with target `T = -value*TurnSpeed - 0.2*|CurrentYawSpeed|`.
For every pawn, value and frame time `dt ≥ 0`, `MoveUpInput(value)` returns, changes
only `CurrentPitchSpeed`, and leaves it between the old pitch rate and `T`
(inclusive), so that `|T - CurrentPitchSpeed|` does not increase; for `dt ≥ 0.5` the
new pitch rate is `T` exactly.  Repeated calls with the same value and `dt` keep the
target, stay on the starting side of `T`, never move away from it, leave the distance
`|T - p₀| * (1 - min(1, 2*dt))^n` after `n` calls, and for `dt > 0` come within any
positive distance of `T` after finitely many calls, for good. -/
theorem pitch_smoothing (p : AAeroFightersPawn) (h : Host) (w : UWorld) (Val : ℚ)
    (hw : h.World = some w) (hdt : 0 ≤ w.DeltaSeconds) :
    (∃ q : AAeroFightersPawn,
        MoveUpInput p h Val = some (q, []) ∧
        q = { p with CurrentPitchSpeed := q.CurrentPitchSpeed } ∧
        min p.CurrentPitchSpeed (Spec.targetPitchRate p Val) ≤ q.CurrentPitchSpeed ∧
        q.CurrentPitchSpeed ≤ max p.CurrentPitchSpeed (Spec.targetPitchRate p Val) ∧
        |Spec.targetPitchRate p Val - q.CurrentPitchSpeed| ≤
          |Spec.targetPitchRate p Val - p.CurrentPitchSpeed| ∧
        (1 / 2 ≤ w.DeltaSeconds → q.CurrentPitchSpeed = Spec.targetPitchRate p Val)) ∧
      ∃ seq : ℕ → AAeroFightersPawn,
        seq 0 = p ∧
        (∀ n, MoveUpInput (seq n) h Val = some (seq (n + 1), [])) ∧
        (∀ n, Spec.targetPitchRate (seq n) Val = Spec.targetPitchRate p Val) ∧
        (∀ n, |Spec.targetPitchRate p Val - (seq n).CurrentPitchSpeed| =
          |Spec.targetPitchRate p Val - p.CurrentPitchSpeed| *
            (1 - min 1 (2 * w.DeltaSeconds)) ^ n) ∧
        (∀ n, |Spec.targetPitchRate p Val - (seq (n + 1)).CurrentPitchSpeed| ≤
          |Spec.targetPitchRate p Val - (seq n).CurrentPitchSpeed|) ∧
        (∀ n, min (seq n).CurrentPitchSpeed (Spec.targetPitchRate p Val) ≤
            (seq (n + 1)).CurrentPitchSpeed ∧
          (seq (n + 1)).CurrentPitchSpeed ≤
            max (seq n).CurrentPitchSpeed (Spec.targetPitchRate p Val)) ∧
        (0 < w.DeltaSeconds → ∀ ε : ℚ, 0 < ε → ∃ N, ∀ n, N ≤ n →
          |Spec.targetPitchRate p Val - (seq n).CurrentPitchSpeed| < ε) := by
  obtain ⟨ha0, ha1⟩ := blend_mem w.DeltaSeconds hdt
  have hb0 : 0 ≤ 1 - min 1 (2 * w.DeltaSeconds) := by linarith
  have hb1 : 1 - min 1 (2 * w.DeltaSeconds) ≤ 1 := by linarith
  -- one call from any pitch rate `c` towards the target `T` with blend factor `a`
  have between : ∀ T c a : ℚ, 0 ≤ a → a ≤ 1 →
      min c T ≤ c + (T - c) * a ∧ c + (T - c) * a ≤ max c T := by
    intro T c a h0 h1
    rcases le_total c T with hc | hc
    · rw [min_eq_left hc, max_eq_right hc]
      constructor
      · nlinarith
      · nlinarith
    · rw [min_eq_right hc, max_eq_left hc]
      constructor
      · nlinarith
      · nlinarith
  have hdist : ∀ n, Spec.targetPitchRate p Val -
      (pitchState p Val w.DeltaSeconds n).CurrentPitchSpeed =
      (Spec.targetPitchRate p Val - p.CurrentPitchSpeed) *
        (1 - min 1 (2 * w.DeltaSeconds)) ^ n := by
    intro n
    simp only [pitchState]
    ring
  have habs : ∀ n, |Spec.targetPitchRate p Val -
      (pitchState p Val w.DeltaSeconds n).CurrentPitchSpeed| =
      |Spec.targetPitchRate p Val - p.CurrentPitchSpeed| *
        (1 - min 1 (2 * w.DeltaSeconds)) ^ n := by
    intro n
    rw [hdist n, abs_mul, abs_of_nonneg (pow_nonneg hb0 n)]
  refine ⟨⟨_, MoveUpInput_some p h w Val hw, rfl, (between _ _ _ ha0 ha1).1,
    (between _ _ _ ha0 ha1).2, ?_, ?_⟩, pitchState p Val w.DeltaSeconds, ?_,
    fun n => pitch_step p h w Val n hw, fun _ => rfl, habs, ?_, ?_, ?_⟩
  · have e : Spec.targetPitchRate p Val -
        (p.CurrentPitchSpeed + (Spec.targetPitchRate p Val - p.CurrentPitchSpeed) *
          min 1 (2 * w.DeltaSeconds)) =
        (Spec.targetPitchRate p Val - p.CurrentPitchSpeed) *
          (1 - min 1 (2 * w.DeltaSeconds)) := by ring
    simp only
    rw [e, abs_mul, abs_of_nonneg hb0]
    exact mul_le_of_le_one_right (abs_nonneg _) hb1
  · intro hhalf
    simp only
    rw [min_eq_left (by linarith)]
    ring
  · simp only [pitchState, pow_zero, mul_one, sub_sub_cancel]
  · intro n
    rw [habs (n + 1), habs n, pow_succ, ← mul_assoc]
    exact mul_le_of_le_one_right (mul_nonneg (abs_nonneg _) (pow_nonneg hb0 n)) hb1
  · intro n
    have hs := pitch_step p h w Val n hw
    rw [MoveUpInput_some _ h w Val hw, Option.some.injEq, Prod.mk.injEq] at hs
    rw [← hs.1]
    exact between _ _ _ ha0 ha1
  · intro hpos ε hε
    have hlt : 1 - min 1 (2 * w.DeltaSeconds) < 1 := by
      have : 0 < min 1 (2 * w.DeltaSeconds) := lt_min zero_lt_one (by linarith)
      linarith
    have hD : 0 < |Spec.targetPitchRate p Val - p.CurrentPitchSpeed| + 1 := by
      linarith [abs_nonneg (Spec.targetPitchRate p Val - p.CurrentPitchSpeed)]
    obtain ⟨N, hN⟩ := exists_pow_lt_of_lt_one (div_pos hε hD) hlt
    refine ⟨N, fun n hn => ?_⟩
    rw [habs n]
    have hpow : (1 - min 1 (2 * w.DeltaSeconds)) ^ n <
        ε / (|Spec.targetPitchRate p Val - p.CurrentPitchSpeed| + 1) :=
      lt_of_le_of_lt (pow_le_pow_of_le_one hb0 hb1 hn) hN
    rw [lt_div_iff₀ hD] at hpow
    have hnn : 0 ≤ (1 - min 1 (2 * w.DeltaSeconds)) ^ n := pow_nonneg hb0 n
    nlinarith [abs_nonneg (Spec.targetPitchRate p Val - p.CurrentPitchSpeed)]

/-- C9, on the constructed pawn (`TurnSpeed = 50`, all rates 0) with `MoveUpInput(1)`
and frame time 1/4: the target is -50 and one call gives pitch rate -25. -/
theorem pitch_smoothing_witness :
    Spec.targetPitchRate armedPawn 1 = -50 ∧
      MoveUpInput armedPawn (levelHost (some ⟨1 / 4⟩)) 1 =
        some ({ armedPawn with CurrentPitchSpeed := -25 }, []) ∧
      ∃ q : AAeroFightersPawn,
        MoveUpInput armedPawn (levelHost (some ⟨1 / 4⟩)) 1 = some (q, []) ∧
        q = { armedPawn with CurrentPitchSpeed := q.CurrentPitchSpeed } ∧
        min armedPawn.CurrentPitchSpeed (Spec.targetPitchRate armedPawn 1) ≤
          q.CurrentPitchSpeed ∧
        q.CurrentPitchSpeed ≤
          max armedPawn.CurrentPitchSpeed (Spec.targetPitchRate armedPawn 1) ∧
        |Spec.targetPitchRate armedPawn 1 - q.CurrentPitchSpeed| ≤
          |Spec.targetPitchRate armedPawn 1 - armedPawn.CurrentPitchSpeed| ∧
        ((1 : ℚ) / 2 ≤ 1 / 4 → q.CurrentPitchSpeed = Spec.targetPitchRate armedPawn 1) := by
  have hT : Spec.targetPitchRate armedPawn 1 = -50 := by
    simp [Spec.targetPitchRate, armedPawn, AAeroFightersPawn.ctor, zeroPawn]
  refine ⟨hT, ?_,
    (pitch_smoothing armedPawn (levelHost (some ⟨1 / 4⟩)) ⟨1 / 4⟩ 1 rfl (by norm_num)).1⟩
  rw [MoveUpInput_some armedPawn (levelHost (some ⟨1 / 4⟩)) ⟨1 / 4⟩ 1 rfl, hT]
  simp only [armedPawn, AAeroFightersPawn.ctor, zeroPawn]
  norm_num

end AeroFighters
